import Mathlib

/-!
Formal model of the distributed TTS coordination subsystem of `gen-audiobook`.

The Rust source is embedded shallowly:
- machine integers (`u32`, `u64`, `usize`, `u16`) are modelled as `Nat`
  (no arithmetic in the modelled code can overflow at the values involved);
- `f32`/`f64` synthesis parameters are modelled as `ℚ`;
- `String`/`PathBuf` are modelled as `String`, `DateTime<Utc>` as an abstract
  `Nat` timestamp supplied explicitly wherever the source calls `now()`;
- fallible operations return `Option`/`Except`, effectful steps (network,
  filesystem) are modelled by passing their outcomes in explicitly;
- `HashMap` accumulators are modelled as total functions with pointwise
  update, `HashSet`/`Vec` as lists.
-/

namespace GenAudio

/- ===================== Decimal formatting and parsing =====================
   Embedding of Rust's decimal `Display` for unsigned integers and of
   `str::parse::<usize>()`, needed by the job-id format of
   `worker/protocol.rs` and the parsers of `coordinator/scheduler.rs` and
   `main.rs`. -/

/-- Character of the decimal digit `d` (for `d < 10`). -/
def digitChar (d : Nat) : Char := Char.ofNat (48 + d)

/-- Numeric value of a decimal digit character. -/
def digitVal (c : Char) : Nat := c.toNat - 48

/-- Decimal digits of `n`, most significant first, with explicit fuel so the
recursion is structural. Returns `[]` for `n = 0`; `natDigits` handles that
case. -/
def natDigitsAux : Nat → Nat → List Char
  | 0, _ => []
  | fuel + 1, n =>
    if n = 0 then [] else natDigitsAux fuel (n / 10) ++ [digitChar (n % 10)]

/-- Decimal representation of `n`, as produced by Rust's `{}` formatting of an
unsigned integer. -/
def natDigits (n : Nat) : List Char :=
  if n = 0 then ['0'] else natDigitsAux (n + 1) n

/-- Zero-pad `ds` on the left to width `w`, as Rust's `{:0w}` format
specifier does (numbers wider than `w` are left untouched). -/
def padZeros (w : Nat) (ds : List Char) : List Char :=
  List.replicate (w - ds.length) '0' ++ ds

/-- Embedding of Rust's `str::parse::<usize>()` restricted to the inputs that
matter here: it succeeds exactly on a non-empty all-digit string. (Rust also
accepts a redundant leading `+`, which can never occur in a job-id segment,
and rejects values above `usize::MAX`, which cannot be produced by formatting
a `usize` value.) -/
def parseUsize (cs : List Char) : Option Nat :=
  if cs ≠ [] ∧ cs.all Char.isDigit then
    some (cs.foldl (fun a c => a * 10 + digitVal c) 0)
  else none

/-- Embedding of Rust's `str::split('_')`: split at every underscore, keeping
empty segments. -/
def splitUnderscore : List Char → List (List Char)
  | [] => [[]]
  | c :: rest =>
    if c = '_' then [] :: splitUnderscore rest
    else
      match splitUnderscore rest with
      | [] => [[c]]
      | h :: t => (c :: h) :: t

/- ===================== Wire protocol (worker/protocol.rs) ===================== -/

/-- Current protocol version (`PROTOCOL_VERSION` in `worker/protocol.rs`). -/
def PROTOCOL_VERSION : Nat := 1

/-- TTS synthesis options sent with each job (`TtsJobOptions`). The three
`f32` fields are modelled as `ℚ`. -/
structure TtsJobOptions where
  exaggeration : ℚ
  cfg : ℚ
  temperature : ℚ
  voice_ref_hash : Option String
deriving DecidableEq, Repr

/-- Rust's `Default` impl for `TtsJobOptions`. (`0.8f32` is modelled by the
rational `4/5`; no claim compares the numeric value of this default.) -/
def TtsJobOptions.default : TtsJobOptions :=
  { exaggeration := 1/2, cfg := 1/2, temperature := 4/5, voice_ref_hash := none }

/-- A TTS job to be executed by a worker (`TtsJob`). -/
structure TtsJob where
  version : Nat
  job_id : String
  session_id : String
  chapter_id : Nat
  chunk_id : Nat
  text : String
  options : TtsJobOptions
  created_at : Nat
deriving DecidableEq, Repr

/-- Wire job identifier built by `TtsJob::new`:
`format!("{}_ch{:03}_ck{:04}", session_id, chapter_id, chunk_id)`. -/
def mkJobId (sessionId : String) (chapterId chunkId : Nat) : String :=
  sessionId ++ "_ch" ++ String.mk (padZeros 3 (natDigits chapterId))
    ++ "_ck" ++ String.mk (padZeros 4 (natDigits chunkId))

/-- Embedding of `TtsJob::new`; `created_at: Utc::now()` is passed in as
`now`. -/
def TtsJob.new (sessionId : String) (chapterId chunkId : Nat) (text : String)
    (options : TtsJobOptions) (now : Nat) : TtsJob :=
  { version := PROTOCOL_VERSION
    job_id := mkJobId sessionId chapterId chunkId
    session_id := sessionId
    chapter_id := chapterId
    chunk_id := chunkId
    text := text
    options := options
    created_at := now }

/-- Status of a completed job (`JobStatus`). -/
inductive JobStatus where
  | completed
  | failed
  | timeout
deriving DecidableEq, Repr

/-- Result of a TTS job execution (`TtsResult`). -/
structure TtsResult where
  version : Nat
  job_id : String
  status : JobStatus
  duration_ms : Option Nat
  audio_size_bytes : Option Nat
  audio_path : Option String
  error : Option String
  completed_at : Nat
deriving DecidableEq, Repr

/-- Embedding of `parse_chapter_from_job_id` (`coordinator/scheduler.rs` and
`main.rs`): split the id on `'_'` and return at the FIRST segment that starts
with `"ch"`, parsing the remainder of that segment. -/
def parseChapterFromJobId (jobId : String) : Option Nat :=
  match (splitUnderscore jobId.data).find? (fun p => ['c', 'h'].isPrefixOf p) with
  | some part => parseUsize (part.drop 2)
  | none => none

/-- Embedding of `parse_chunk_from_job_id`: same scheme with the `"ck"`
segment. -/
def parseChunkFromJobId (jobId : String) : Option Nat :=
  match (splitUnderscore jobId.data).find? (fun p => ['c', 'k'].isPrefixOf p) with
  | some part => parseUsize (part.drop 2)
  | none => none

/- ===================== Lemmas about digits and splitting ===================== -/

theorem digitVal_digitChar {d : Nat} (h : d < 10) : digitVal (digitChar d) = d := by
  interval_cases d <;> rfl

theorem isDigit_digitChar {d : Nat} (h : d < 10) : (digitChar d).isDigit = true := by
  interval_cases d <;> rfl

theorem digitChar_ne_underscore {d : Nat} (h : d < 10) : digitChar d ≠ '_' := by
  interval_cases d <;> decide

theorem natDigitsAux_all_digit : ∀ fuel n, ∀ c ∈ natDigitsAux fuel n, c.isDigit = true := by
  intro fuel
  induction fuel with
  | zero => intro n c hc; simp [natDigitsAux] at hc
  | succ fuel ih =>
    intro n c hc
    by_cases hn : n = 0
    · simp [natDigitsAux, hn] at hc
    · simp only [natDigitsAux, if_neg hn, List.mem_append, List.mem_singleton] at hc
      rcases hc with hc | hc
      · exact ih _ c hc
      · exact hc ▸ isDigit_digitChar (Nat.mod_lt _ (by norm_num))

theorem natDigits_all_digit (n : Nat) : ∀ c ∈ natDigits n, c.isDigit = true := by
  intro c hc
  by_cases hn : n = 0
  · simp [natDigits, hn] at hc
    simp [hc]
  · exact natDigitsAux_all_digit _ _ c (by simpa [natDigits, hn] using hc)

theorem natDigits_ne_nil (n : Nat) : natDigits n ≠ [] := by
  by_cases hn : n = 0
  · simp [natDigits, hn]
  · have : natDigitsAux (n + 1) n = natDigitsAux n (n / 10) ++ [digitChar (n % 10)] := by
      simp [natDigitsAux, hn]
    simp [natDigits, hn, this]

theorem padZeros_all_digit (w : Nat) {ds : List Char}
    (h : ∀ c ∈ ds, c.isDigit = true) : ∀ c ∈ padZeros w ds, c.isDigit = true := by
  intro c hc
  simp only [padZeros, List.mem_append, List.mem_replicate] at hc
  rcases hc with ⟨_, rfl⟩ | hc
  · rfl
  · exact h c hc

theorem padZeros_ne_nil (w : Nat) {ds : List Char} (h : ds ≠ []) : padZeros w ds ≠ [] := by
  simp [padZeros, h]

theorem no_underscore_of_all_digit {ds : List Char}
    (h : ∀ c ∈ ds, c.isDigit = true) : '_' ∉ ds := by
  intro hmem
  have := h _ hmem
  simp [Char.isDigit] at this

/-- Folding the parse step over the digits of `n` recovers `n` (with the
accumulator scaled by the number of digits). -/
theorem foldl_natDigitsAux : ∀ fuel n, n ≤ fuel → ∀ a,
    (natDigitsAux fuel n).foldl (fun a c => a * 10 + digitVal c) a
      = a * 10 ^ (natDigitsAux fuel n).length + n := by
  intro fuel
  induction fuel with
  | zero =>
    intro n hn a
    interval_cases n
    simp [natDigitsAux]
  | succ fuel ih =>
    intro n hn a
    by_cases h0 : n = 0
    · simp [natDigitsAux, h0]
    · have hdiv : n / 10 ≤ fuel := by
        have : n / 10 < n := Nat.div_lt_self (Nat.pos_of_ne_zero h0) (by norm_num)
        omega
      simp only [natDigitsAux, if_neg h0, List.foldl_append, List.length_append,
        List.foldl_cons, List.foldl_nil, List.length_cons, List.length_nil]
      rw [ih _ hdiv a, digitVal_digitChar (Nat.mod_lt _ (by norm_num))]
      have h2 : 10 * (n / 10) + n % 10 = n := Nat.div_add_mod n 10
      ring_nf
      omega

theorem foldl_replicate_zero : ∀ k, (List.replicate k '0').foldl
    (fun a c => a * 10 + digitVal c) 0 = 0 := by
  intro k
  induction k with
  | zero => rfl
  | succ k ih => simpa [List.replicate_succ, digitVal] using ih

/-- Parsing the zero-padded decimal representation of `n` yields `n`. -/
theorem parseUsize_padZeros_natDigits (w n : Nat) :
    parseUsize (padZeros w (natDigits n)) = some n := by
  have hdig := padZeros_all_digit w (natDigits_all_digit n)
  have hne := padZeros_ne_nil w (natDigits_ne_nil n)
  rw [parseUsize, if_pos ⟨hne, List.all_eq_true.mpr (fun c hc => hdig c hc)⟩]
  congr 1
  unfold padZeros
  rw [List.foldl_append, foldl_replicate_zero]
  by_cases h0 : n = 0
  · simp [natDigits, h0, digitVal]
  · have : natDigits n = natDigitsAux (n + 1) n := by simp [natDigits, h0]
    rw [this, foldl_natDigitsAux (n + 1) n (Nat.le_succ n) 0]
    simp

theorem splitUnderscore_ne_nil : ∀ cs, splitUnderscore cs ≠ [] := by
  intro cs
  induction cs with
  | nil => simp [splitUnderscore]
  | cons c rest ih =>
    by_cases hc : c = '_'
    · simp [splitUnderscore, hc]
    · simp only [splitUnderscore, if_neg hc]
      cases h : splitUnderscore rest with
      | nil => simp
      | cons h t => simp

/-- Splitting distributes over an underscore-separated concatenation. -/
theorem splitUnderscore_append : ∀ a b,
    splitUnderscore (a ++ '_' :: b) = splitUnderscore a ++ splitUnderscore b := by
  intro a b
  induction a with
  | nil => simp [splitUnderscore]
  | cons c a ih =>
    by_cases hc : c = '_'
    · subst hc
      simp [splitUnderscore, ih]
    · have hne := splitUnderscore_ne_nil a
      cases h : splitUnderscore a with
      | nil => exact absurd h hne
      | cons hd tl =>
        simp only [List.cons_append, splitUnderscore, if_neg hc, List.append_eq]
        rw [ih, h]
        simp

/-- A list without underscores splits into itself. -/
theorem splitUnderscore_no_sep : ∀ (a : List Char), '_' ∉ a → splitUnderscore a = [a] := by
  intro a
  induction a with
  | nil => intro _; rfl
  | cons c rest ih =>
    intro h
    have hc : c ≠ '_' := fun hcu => h (hcu ▸ List.mem_cons_self c rest)
    have hrest : '_' ∉ rest := fun hm => h (List.mem_cons_of_mem c hm)
    simp [splitUnderscore, hc, ih hrest]

theorem data_mk (l : List Char) : (String.mk l).data = l := rfl

theorem mkJobId_data (s : String) (ch ck : Nat) :
    (mkJobId s ch ck).data =
      s.data ++ '_' :: 'c' :: 'h' ::
        (padZeros 3 (natDigits ch) ++ '_' :: 'c' :: 'k' :: padZeros 4 (natDigits ck)) := by
  simp only [mkJobId, String.data_append, data_mk]
  simp [List.append_assoc]

theorem find?_append_of_none {α} {p : α → Bool} {l₁ l₂ : List α}
    (h : ∀ x ∈ l₁, ¬p x = true) : (l₁ ++ l₂).find? p = l₂.find? p := by
  rw [List.find?_append, List.find?_eq_none.mpr h, Option.none_or]

/-- Splitting a generated job id yields the splits of the session id followed
by the `ch` and `ck` segments. -/
theorem splitUnderscore_mkJobId (s : String) (ch ck : Nat) :
    splitUnderscore (mkJobId s ch ck).data =
      splitUnderscore s.data ++
        ['c' :: 'h' :: padZeros 3 (natDigits ch), 'c' :: 'k' :: padZeros 4 (natDigits ck)] := by
  have h3 : '_' ∉ padZeros 3 (natDigits ch) :=
    no_underscore_of_all_digit (padZeros_all_digit _ (natDigits_all_digit ch))
  have h4 : '_' ∉ padZeros 4 (natDigits ck) :=
    no_underscore_of_all_digit (padZeros_all_digit _ (natDigits_all_digit ck))
  rw [mkJobId_data, splitUnderscore_append]
  congr 1
  have hsh : 'c' :: 'h' :: (padZeros 3 (natDigits ch) ++ '_' :: 'c' :: 'k' :: padZeros 4 (natDigits ck))
      = ('c' :: 'h' :: padZeros 3 (natDigits ch)) ++ '_' :: ('c' :: 'k' :: padZeros 4 (natDigits ck)) := by
    simp
  rw [hsh, splitUnderscore_append,
    splitUnderscore_no_sep _ (by simp [h3]),
    splitUnderscore_no_sep _ (by simp [h4])]
  rfl

/-- C1 (amended): for every session id none of whose underscore-separated
segments begins with `"ch"` or `"ck"`, and all chapter and chunk numbers,
`TtsJob::new` builds the job id `"<session_id>_ch<chapter:%03d>_ck<chunk:%04d>"`
and `parse_chapter_from_job_id` / `parse_chunk_from_job_id` recover exactly
the chapter and chunk that produced it. (The unamended claim, quantified over
every session-id string, fails: the parsers return at the first `ch`/`ck`
segment, which may lie inside the session id.) -/
theorem jobId_roundtrip (s : String) (ch ck : Nat) (text : String)
    (options : TtsJobOptions) (now : Nat)
    (hch : ∀ p ∈ splitUnderscore s.data, ¬(['c', 'h'].isPrefixOf p) = true)
    (hck : ∀ p ∈ splitUnderscore s.data, ¬(['c', 'k'].isPrefixOf p) = true) :
    parseChapterFromJobId (TtsJob.new s ch ck text options now).job_id = some ch ∧
    parseChunkFromJobId (TtsJob.new s ch ck text options now).job_id = some ck := by
  have hjob : (TtsJob.new s ch ck text options now).job_id = mkJobId s ch ck := rfl
  rw [hjob]
  constructor
  · rw [parseChapterFromJobId, splitUnderscore_mkJobId,
      find?_append_of_none hch]
    have hfind : List.find? (fun p => ['c', 'h'].isPrefixOf p)
        ['c' :: 'h' :: padZeros 3 (natDigits ch), 'c' :: 'k' :: padZeros 4 (natDigits ck)]
        = some ('c' :: 'h' :: padZeros 3 (natDigits ch)) := by
      simp [List.find?, List.isPrefixOf]
    rw [hfind]
    exact parseUsize_padZeros_natDigits 3 ch
  · rw [parseChunkFromJobId, splitUnderscore_mkJobId,
      find?_append_of_none hck]
    have hfind : List.find? (fun p => ['c', 'k'].isPrefixOf p)
        ['c' :: 'h' :: padZeros 3 (natDigits ch), 'c' :: 'k' :: padZeros 4 (natDigits ck)]
        = some ('c' :: 'k' :: padZeros 4 (natDigits ck)) := by
      simp [List.find?, List.isPrefixOf]
    rw [hfind]
    exact parseUsize_padZeros_natDigits 4 ck

/-- C1 witness: scenario S1 of the specification, session `sess123`,
chapter 1, chunk 42. -/
theorem jobId_roundtrip_witness :
    (TtsJob.new "sess123" 1 42 "Hello" TtsJobOptions.default 0).job_id
        = "sess123_ch001_ck0042" ∧
    parseChapterFromJobId (TtsJob.new "sess123" 1 42 "Hello" TtsJobOptions.default 0).job_id
        = some 1 ∧
    parseChunkFromJobId (TtsJob.new "sess123" 1 42 "Hello" TtsJobOptions.default 0).job_id
        = some 42 := by
  have h := jobId_roundtrip "sess123" 1 42 "Hello" TtsJobOptions.default 0
    (by decide) (by decide)
  exact ⟨by decide, h.1, h.2⟩

/-- C1 counterexample: with session id `ch1` (whose first segment starts with
`ch`), chapter 2, chunk 3, the generated job id is `ch1_ch002_ck0003` but the
chapter parser returns the `1` found inside the session id, not the chapter 2
that produced the id. -/
theorem jobId_roundtrip_counterexample :
    (TtsJob.new "ch1" 2 3 "t" TtsJobOptions.default 0).job_id = "ch1_ch002_ck0003" ∧
    parseChapterFromJobId (TtsJob.new "ch1" 2 3 "t" TtsJobOptions.default 0).job_id
        = some 1 ∧
    parseChapterFromJobId (TtsJob.new "ch1" 2 3 "t" TtsJobOptions.default 0).job_id
        ≠ some 2 := by
  refine ⟨by decide, by decide, by decide⟩

/- ===================== Worker pool (coordinator/config.rs, coordinator/pool.rs) ===================== -/

/-- Worker status response for health checks (`WorkerStatus` in
`worker/protocol.rs`). -/
structure WorkerStatus where
  ready : Bool
  device : String
  gena_version : String
  chatterbox_installed : Bool
  jobs_in_progress : Nat
  available_disk_mb : Nat
deriving DecidableEq, Repr

/-- Default settings applied to all workers (`WorkerDefaults`). -/
structure WorkerDefaults where
  ssh_timeout_secs : Nat
  job_timeout_secs : Nat
  retry_attempts : Nat
  max_concurrent_jobs : Nat
deriving DecidableEq, Repr

/-- Rust's `Default` impl for `WorkerDefaults`. -/
def WorkerDefaults.default : WorkerDefaults :=
  { ssh_timeout_secs := 30, job_timeout_secs := 300, retry_attempts := 3,
    max_concurrent_jobs := 1 }

/-- Configuration for a single worker (`WorkerConfig`). -/
structure WorkerConfig where
  name : String
  host : String
  user : String
  port : Nat
  ssh_key : Option String
  priority : Nat
  ssh_timeout_secs : Option Nat
  job_timeout_secs : Option Nat
  max_concurrent_jobs : Option Nat
deriving DecidableEq, Repr

/-- Embedding of `WorkerConfig::new` (port 22, priority 1, no overrides). -/
def WorkerConfig.new (name host user : String) : WorkerConfig :=
  { name := name, host := host, user := user, port := 22, ssh_key := none,
    priority := 1, ssh_timeout_secs := none, job_timeout_secs := none,
    max_concurrent_jobs := none }

/-- Effective max concurrent jobs (`WorkerConfig::max_concurrent`). -/
def WorkerConfig.max_concurrent (c : WorkerConfig) (d : WorkerDefaults) : Nat :=
  c.max_concurrent_jobs.getD d.max_concurrent_jobs

/-- Effective job timeout (`WorkerConfig::job_timeout`). -/
def WorkerConfig.job_timeout (c : WorkerConfig) (d : WorkerDefaults) : Nat :=
  c.job_timeout_secs.getD d.job_timeout_secs

/-- A managed worker in the pool (`Worker` in `coordinator/pool.rs`). The
`SshConnection` handle is a transport object with no observable state of its
own and is not part of the model; `active_jobs : HashSet<String>` is
modelled as a list of job ids. -/
structure Worker where
  config : WorkerConfig
  status : Option WorkerStatus
  active_jobs : List String
  connected : Bool
deriving DecidableEq, Repr

/-- Embedding of `Worker::new`. -/
def Worker.new (config : WorkerConfig) : Worker :=
  { config := config, status := none, active_jobs := [], connected := false }

/-- Embedding of `Worker::is_ready`:
`self.connected && self.status.as_ref().map(|s| s.ready).unwrap_or(false)`. -/
def Worker.is_ready (w : Worker) : Bool :=
  w.connected && (w.status.map (fun s => s.ready)).getD false

/-- Embedding of `Worker::active_job_count`. -/
def Worker.active_job_count (w : Worker) : Nat := w.active_jobs.length

/-- Embedding of `Worker::can_accept_job`: ready and strictly below the
effective max-concurrent bound. -/
def Worker.can_accept_job (w : Worker) (d : WorkerDefaults) : Bool :=
  w.is_ready && decide (w.active_job_count < w.config.max_concurrent d)

/-- Eligibility as the specification words it: `is_ready()` and in-flight
count strictly below the effective max-concurrent bound. -/
def Eligible (d : WorkerDefaults) (w : Worker) : Prop :=
  w.is_ready = true ∧ w.active_job_count < w.config.max_concurrent d

instance (d : WorkerDefaults) (w : Worker) : Decidable (Eligible d w) := by
  unfold Eligible; infer_instance

theorem can_accept_job_iff (w : Worker) (d : WorkerDefaults) :
    w.can_accept_job d = true ↔ Eligible d w := by
  simp [Worker.can_accept_job, Eligible, Bool.and_eq_true]

/-- Sort key ordering used by `WorkerPool::get_available_worker`:
`sort_by_key(|w| (w.config.priority, w.active_job_count()))`, i.e. the
lexicographic order on `(priority, active-job count)`. -/
def workerLe (a b : Worker) : Prop :=
  a.config.priority < b.config.priority ∨
    (a.config.priority = b.config.priority ∧ a.active_job_count ≤ b.active_job_count)

instance : DecidableRel workerLe := fun a b => by unfold workerLe; infer_instance

instance : IsTotal Worker workerLe := ⟨fun a b => by unfold workerLe; omega⟩

instance : IsTrans Worker workerLe := ⟨fun a b c => by unfold workerLe; omega⟩

theorem workerLe_refl (a : Worker) : workerLe a a := by unfold workerLe; omega

/-- Pool of workers (`WorkerPool`). `uploaded_voices` models the
`HashMap<String, HashSet<String>>` memoization of uploaded voice hashes. -/
structure WorkerPool where
  workers : List Worker
  defaults : WorkerDefaults
  uploaded_voices : List (String × List String)
deriving DecidableEq, Repr

/-- Embedding of `WorkerPool::get_available_worker`: the source stably sorts
`self.workers` in place by `(priority, active_job_count)` (Rust's
`sort_by_key` is a stable sort; the stable sort of a list is unique, so it
is modelled by insertion sort) and returns the first worker of the sorted
list that `can_accept_job`. -/
def WorkerPool.get_available_worker (p : WorkerPool) : Option Worker :=
  (List.insertionSort workerLe p.workers).find? (fun w => w.can_accept_job p.defaults)

/-- Embedding of `WorkerPool::job_timeout`. -/
def WorkerPool.job_timeout (p : WorkerPool) : Nat := p.defaults.job_timeout_secs

/-- First match of a sorted search is a lower bound of every match. -/
theorem find?_min_of_pairwise {α} {p : α → Bool} {r : α → α → Prop}
    (hrefl : ∀ a, r a a) :
    ∀ {l : List α} {x : α}, l.Pairwise r → l.find? p = some x →
      ∀ y ∈ l, p y = true → r x y := by
  intro l
  induction l with
  | nil => intro x _ hfind y hy; simp at hy
  | cons a t ih =>
    intro x hpw hfind y hy hpy
    rcases List.pairwise_cons.mp hpw with ⟨ha, ht⟩
    by_cases hpa : p a = true
    · rw [List.find?_cons_of_pos _ hpa] at hfind
      cases hfind
      rcases List.mem_cons.mp hy with rfl | hy
      · exact hrefl _
      · exact ha y hy
    · rw [List.find?_cons_of_neg _ (by simpa using hpa)] at hfind
      rcases List.mem_cons.mp hy with rfl | hy
      · exact absurd hpy hpa
      · exact ih ht hfind y hy hpy

/-- C2 (amended): `get_available_worker` returns a worker that is eligible
(`is_ready()` and in-flight count strictly below its effective
max-concurrent) and minimal among all eligible workers under the ordering
(priority ascending, in-flight count ascending); ties are broken by the
stable sort, i.e. by position in the pool's current worker list, NOT by
name. It returns none exactly when no worker is eligible. -/
theorem get_available_worker_spec (p : WorkerPool) :
    (∀ w, p.get_available_worker = some w →
        w ∈ p.workers ∧ Eligible p.defaults w ∧
        ∀ y ∈ p.workers, Eligible p.defaults y →
          w.config.priority < y.config.priority ∨
            (w.config.priority = y.config.priority ∧
              w.active_job_count ≤ y.active_job_count)) ∧
    (p.get_available_worker = none ↔ ∀ w ∈ p.workers, ¬Eligible p.defaults w) := by
  have hperm := List.perm_insertionSort workerLe p.workers
  have hsorted := List.sorted_insertionSort workerLe p.workers
  constructor
  · intro w hw
    unfold WorkerPool.get_available_worker at hw
    have hmemS : w ∈ List.insertionSort workerLe p.workers := List.mem_of_find?_eq_some hw
    have hmem : w ∈ p.workers := hperm.mem_iff.mp hmemS
    have hacc := List.find?_some hw
    refine ⟨hmem, (can_accept_job_iff _ _).mp hacc, ?_⟩
    intro y hy hely
    have hyS : y ∈ List.insertionSort workerLe p.workers := hperm.mem_iff.mpr hy
    have hle := find?_min_of_pairwise workerLe_refl hsorted hw y hyS
      ((can_accept_job_iff _ _).mpr hely)
    exact hle
  · constructor
    · intro hnone w hw hel
      unfold WorkerPool.get_available_worker at hnone
      exact List.find?_eq_none.mp hnone w (hperm.mem_iff.mpr hw)
        ((can_accept_job_iff _ _).mpr hel)
    · intro hall
      apply List.find?_eq_none.mpr
      intro w hwS hacc
      exact hall w (hperm.mem_iff.mp hwS) ((can_accept_job_iff _ _).mp hacc)

/-- Ready worker named `a`, priority 1, idle. -/
def workerA : Worker :=
  { config := { WorkerConfig.new "a" "host1" "user" with priority := 1 }
    status := some { ready := true, device := "cuda", gena_version := "0.1.0",
                     chatterbox_installed := true, jobs_in_progress := 0,
                     available_disk_mb := 50000 }
    active_jobs := []
    connected := true }

/-- Ready worker named `b`, priority 1, idle. -/
def workerB : Worker :=
  { workerA with config := { WorkerConfig.new "b" "host2" "user" with priority := 1 } }

/-- Pool whose configured worker order is `[b, a]`. -/
def poolBA : WorkerPool :=
  { workers := [workerB, workerA], defaults := WorkerDefaults.default,
    uploaded_voices := [] }

/-- C2 witness: on the pool `[b, a]` the selection returns worker `b`, which
is indeed eligible. -/
theorem get_available_worker_spec_witness :
    poolBA.get_available_worker = some workerB ∧ Eligible poolBA.defaults workerB := by
  have h := (get_available_worker_spec poolBA).1 workerB (by decide)
  exact ⟨by decide, h.2.1⟩

/-- C2 counterexample: two ready idle workers of equal priority and equal
in-flight count, configured in the order `[b, a]`. The claimed ordering
(priority, in-flight count, name ascending) would pick `a` (its name is
smaller: `'a' < 'b'`), but the source has no name tie-break and its stable
sort keeps configuration order, so `b` is returned. -/
theorem get_available_worker_counterexample :
    (poolBA.get_available_worker).map (fun w => w.config.name) = some "b" ∧
    Eligible poolBA.defaults workerA ∧
    workerA.config.priority = workerB.config.priority ∧
    workerA.active_job_count = workerB.active_job_count ∧
    workerA.config.name = "a" ∧ workerB.config.name = "b" ∧ 'a' < 'b' := by
  refine ⟨by decide, by decide, by decide, by decide, by decide, by decide, by decide⟩

/- ===================== Scheduler (coordinator/scheduler.rs) ===================== -/

/-- Per-worker statistics (`WorkerStats`, with its `Default` of zeroes). -/
structure WorkerStats where
  completed : Nat
  total_time_ms : Nat
deriving DecidableEq, Repr

/-- Zero statistics (`WorkerStats::default`). -/
def WorkerStats.default : WorkerStats := { completed := 0, total_time_ms := 0 }

/-- A job currently in flight (`InFlightJob`). -/
structure InFlightJob where
  job : TtsJob
  worker_name : String
deriving DecidableEq, Repr

/-- Scheduler state (`JobScheduler`). The `pool` field is not part of the
state: the scheduler consults the pool only to decide which worker receives
the next dispatch, and in the trace semantics below that choice is carried
by the dispatch event (the properties proved hold for every choice, in
particular for the one the pool makes). The `retry_counts` and
`worker_stats` hash maps are modelled as total functions, since
`entry(..).or_insert(0)` / `or_default()` make a lookup of an absent key
behave as the zero value. -/
structure JobScheduler where
  pending : List TtsJob
  in_flight : List InFlightJob
  completed : List TtsResult
  failed : List TtsJob
  max_retries : Nat
  retry_counts : String → Nat
  worker_stats : String → WorkerStats
  temp_dir : String

/-- Embedding of `JobScheduler::new` (`max_retries` is hard-coded to 3 in
the source). -/
def JobScheduler.new (temp_dir : String) : JobScheduler :=
  { pending := [], in_flight := [], completed := [], failed := [],
    max_retries := 3, retry_counts := fun _ => 0,
    worker_stats := fun _ => WorkerStats.default, temp_dir := temp_dir }

/-- Embedding of `JobScheduler::enqueue`. -/
def JobScheduler.enqueue (s : JobScheduler) (jobs : List TtsJob) : JobScheduler :=
  { s with pending := s.pending ++ jobs }

/-- Remove the first element satisfying `p`, returning it and the remaining
list. Models `iter().position(p)` followed by `Vec::remove(idx)`. -/
def extractFirst {α} (p : α → Bool) : List α → Option (α × List α)
  | [] => none
  | x :: xs =>
    if p x then some (x, xs)
    else (extractFirst p xs).map (fun r => (r.1, x :: r.2))

/-- Embedding of `JobScheduler::handle_result`. The audio download and the
best-effort remote cleanup are effectful; the download outcome is passed in
as `downloadOk` and — exactly as in the source, where a failure only prints
a warning — it influences neither the state nor the callback. Returns the
new state together with the list of `on_result` callback invocations made
during the call. -/
def JobScheduler.handleResult (s : JobScheduler) (worker_name : String)
    (result : TtsResult) (_downloadOk : Bool) : JobScheduler × List TtsResult :=
  match extractFirst (fun j => j.job.job_id == result.job_id) s.in_flight with
  | none => (s, [])
  | some (entry, rest) =>
    match result.status with
    | JobStatus.completed =>
      let st := s.worker_stats worker_name
      let st := { st with completed := st.completed + 1,
                          total_time_ms := st.total_time_ms + result.duration_ms.getD 0 }
      ({ s with in_flight := rest,
                worker_stats := fun n => if n = worker_name then st else s.worker_stats n,
                completed := s.completed ++ [result] },
       [result])
    | JobStatus.failed | JobStatus.timeout =>
      let rc := s.retry_counts entry.job.job_id + 1
      if rc < s.max_retries then
        ({ s with in_flight := rest,
                  retry_counts := fun id =>
                    if id = entry.job.job_id then rc else s.retry_counts id,
                  failed := s.failed ++ [entry.job] },
         [])
      else
        ({ s with in_flight := rest,
                  retry_counts := fun id =>
                    if id = entry.job.job_id then rc else s.retry_counts id,
                  completed := s.completed ++ [result] },
         [result])

/-- One observable step of the `run_to_completion` loop: a dispatch
iteration that obtained an available worker `w` from the pool and moved the
head of `pending` into `in_flight`; one iteration of the retry-promotion
loop (`failed.pop()` then `pending.push_front`); or receipt of one result
on the channel. -/
inductive SchedEvent where
  | dispatch (worker_name : String)
  | promote
  | result (worker_name : String) (r : TtsResult) (downloadOk : Bool)

/-- Effect of one event on the scheduler state. -/
def schedStep (s : JobScheduler) : SchedEvent → JobScheduler
  | SchedEvent.dispatch w =>
    match s.pending with
    | [] => s
    | j :: rest =>
      { s with pending := rest,
               in_flight := s.in_flight ++ [{ job := j, worker_name := w }] }
  | SchedEvent.promote =>
    match s.failed.getLast? with
    | none => s
    | some j => { s with failed := s.failed.dropLast, pending := j :: s.pending }
  | SchedEvent.result w r dl => (s.handleResult w r dl).1

/-- Run a trace of events. -/
def schedRun (s : JobScheduler) : List SchedEvent → JobScheduler
  | [] => s
  | e :: evs => schedRun (schedStep s e) evs

/-- Whether the event dispatches the job with id `jid` from state `s`
(1 if so, 0 otherwise). -/
def dispAt (s : JobScheduler) (e : SchedEvent) (jid : String) : Nat :=
  match e, s.pending with
  | SchedEvent.dispatch _, j :: _ => if j.job_id == jid then 1 else 0
  | _, _ => 0

/-- Number of dispatches of job id `jid` along a trace. -/
def dispatchCount (s : JobScheduler) : List SchedEvent → String → Nat
  | [], _ => 0
  | e :: evs, jid => dispAt s e jid + dispatchCount (schedStep s e) evs jid

/-- Results delivered by the events of a trace. -/
def traceResults : List SchedEvent → List TtsResult
  | [] => []
  | SchedEvent.result _ r _ :: evs => r :: traceResults evs
  | SchedEvent.dispatch _ :: evs => traceResults evs
  | SchedEvent.promote :: evs => traceResults evs

/-- Occurrences of job id `jid` in `pending`. -/
def pendCount (s : JobScheduler) (jid : String) : Nat :=
  s.pending.countP (fun j => j.job_id == jid)

/-- Occurrences of job id `jid` in `in_flight`. -/
def flightCount (s : JobScheduler) (jid : String) : Nat :=
  s.in_flight.countP (fun e => e.job.job_id == jid)

/-- Occurrences of job id `jid` in `failed`. -/
def failCount (s : JobScheduler) (jid : String) : Nat :=
  s.failed.countP (fun j => j.job_id == jid)

/-- Occurrences of job id `jid` anywhere in the live queues. -/
def occCount (s : JobScheduler) (jid : String) : Nat :=
  pendCount s jid + flightCount s jid + failCount s jid

/-- Results for job id `jid` in the `completed` list. -/
def doneCount (s : JobScheduler) (jid : String) : Nat :=
  s.completed.countP (fun r => r.job_id == jid)

/-- Completed-status results for `jid` in the `completed` list. -/
def doneOkCount (s : JobScheduler) (jid : String) : Nat :=
  s.completed.countP (fun r => r.job_id == jid && r.status == JobStatus.completed)

/-- Failed- or timeout-status results for `jid` in the `completed` list. -/
def doneFailCount (s : JobScheduler) (jid : String) : Nat :=
  s.completed.countP (fun r => r.job_id == jid && !(r.status == JobStatus.completed))

/-- Inductive invariant tying the state of one job (identified by `jid`) to
the number `disp` of its dispatches so far. -/
def JobInv (s : JobScheduler) (jid : String) (disp : Nat) : Prop :=
  occCount s jid + doneCount s jid = 1 ∧
  disp = flightCount s jid + s.retry_counts jid + doneOkCount s jid ∧
  s.retry_counts jid ≤ s.max_retries ∧
  (s.retry_counts jid = s.max_retries → occCount s jid = 0) ∧
  (s.retry_counts jid = s.max_retries → 1 ≤ doneFailCount s jid)

theorem countP_split {α} (p q : α → Bool) (l : List α) :
    l.countP p = l.countP (fun x => p x && q x) + l.countP (fun x => p x && !q x) := by
  induction l with
  | nil => rfl
  | cons x xs ih =>
    by_cases hp : p x <;> by_cases hq : q x <;>
      simp [List.countP_cons, hp, hq, ih] <;> omega

theorem extractFirst_some_prop {α} {p : α → Bool} :
    ∀ {l : List α} {x : α} {rest : List α}, extractFirst p l = some (x, rest) →
      p x = true ∧ ∀ q : α → Bool,
        l.countP q = rest.countP q + (if q x then 1 else 0) := by
  intro l
  induction l with
  | nil => intro x rest h; simp [extractFirst] at h
  | cons a xs ih =>
    intro x rest h
    by_cases hp : p a
    · simp only [extractFirst, if_pos hp, Option.some_inj, Prod.mk.injEq] at h
      obtain ⟨rfl, rfl⟩ := h
      exact ⟨hp, fun q => by rw [List.countP_cons]⟩
    · simp only [extractFirst, if_neg hp] at h
      cases hx : extractFirst p xs with
      | none => rw [hx] at h; simp at h
      | some pr =>
        rw [hx] at h
        cases pr with
        | mk y ys =>
          simp at h
          obtain ⟨rfl, rfl⟩ := h
          obtain ⟨hpx, hcnt⟩ := ih hx
          refine ⟨hpx, fun q => ?_⟩
          rw [List.countP_cons, List.countP_cons, hcnt q]
          omega

theorem extractFirst_some_of_exists {α} {p : α → Bool} :
    ∀ {l : List α}, (∃ x ∈ l, p x = true) →
      ∃ y rest, extractFirst p l = some (y, rest) := by
  intro l
  induction l with
  | nil => intro h; simp at h
  | cons a xs ih =>
    intro h
    by_cases hp : p a
    · exact ⟨a, xs, by simp [extractFirst, hp]⟩
    · obtain ⟨x, hx, hpx⟩ := h
      rcases List.mem_cons.mp hx with rfl | hx
      · exact absurd hpx (by simpa using hp)
      · obtain ⟨y, rest, hy⟩ := ih ⟨x, hx, hpx⟩
        exact ⟨y, a :: rest, by simp [extractFirst, hp, hy]⟩

/-- Equation lemma: no matching in-flight entry, the result is silently
dropped. -/
theorem handleResult_eq_none (s : JobScheduler) (w : String) (r : TtsResult) (dl : Bool)
    (hx : extractFirst (fun j => j.job.job_id == r.job_id) s.in_flight = none) :
    s.handleResult w r dl = (s, []) := by
  unfold JobScheduler.handleResult
  rw [hx]

/-- Equation lemma: completed-status result. -/
theorem handleResult_eq_completed (s : JobScheduler) (w : String) (r : TtsResult) (dl : Bool)
    {entry : InFlightJob} {rest : List InFlightJob}
    (hx : extractFirst (fun j => j.job.job_id == r.job_id) s.in_flight = some (entry, rest))
    (hst : r.status = JobStatus.completed) :
    s.handleResult w r dl =
      ({ s with in_flight := rest,
                worker_stats := fun n => if n = w then
                    { completed := (s.worker_stats w).completed + 1,
                      total_time_ms := (s.worker_stats w).total_time_ms + r.duration_ms.getD 0 }
                  else s.worker_stats n,
                completed := s.completed ++ [r] },
       [r]) := by
  unfold JobScheduler.handleResult
  rw [hx, hst]

/-- Equation lemma: failed- or timeout-status result. -/
theorem handleResult_eq_failed (s : JobScheduler) (w : String) (r : TtsResult) (dl : Bool)
    {entry : InFlightJob} {rest : List InFlightJob}
    (hx : extractFirst (fun j => j.job.job_id == r.job_id) s.in_flight = some (entry, rest))
    (hst : r.status ≠ JobStatus.completed) :
    s.handleResult w r dl =
      (if s.retry_counts entry.job.job_id + 1 < s.max_retries then
        ({ s with in_flight := rest,
                  retry_counts := fun id =>
                    if id = entry.job.job_id then s.retry_counts entry.job.job_id + 1
                    else s.retry_counts id,
                  failed := s.failed ++ [entry.job] },
         ([] : List TtsResult))
      else
        ({ s with in_flight := rest,
                  retry_counts := fun id =>
                    if id = entry.job.job_id then s.retry_counts entry.job.job_id + 1
                    else s.retry_counts id,
                  completed := s.completed ++ [r] },
         [r])) := by
  unfold JobScheduler.handleResult
  rw [hx]
  cases h : r.status with
  | completed => exact absurd h hst
  | failed => rfl
  | timeout => rfl


theorem eq_dropLast_append_of_getLast? {α} :
    ∀ {l : List α} {x : α}, l.getLast? = some x → l = l.dropLast ++ [x] := by
  intro l
  induction l with
  | nil => intro x h; simp at h
  | cons a t ih =>
    intro x h
    cases t with
    | nil =>
      simp at h
      subst h
      rfl
    | cons b t2 =>
      rw [List.getLast?_cons_cons] at h
      have ht := ih h
      have hdl : (a :: b :: t2).dropLast = a :: (b :: t2).dropLast := rfl
      rw [hdl, List.cons_append, ← ht]

/-- One step of the scheduler preserves the per-job invariant, the dispatch
counter growing by `dispAt`. -/
theorem jobInv_step (s : JobScheduler) (e : SchedEvent) (jid : String) (d : Nat)
    (hinv : JobInv s jid d) : JobInv (schedStep s e) jid (d + dispAt s e jid) := by
  obtain ⟨h1, h2, h3, h4, h5⟩ := hinv
  simp only [occCount, pendCount, flightCount, failCount, doneCount, doneOkCount,
    doneFailCount] at h1 h2 h4 h5
  cases e with
  | dispatch w =>
    cases hp : s.pending with
    | nil =>
      have hs : schedStep s (SchedEvent.dispatch w) = s := by simp [schedStep, hp]
      have hd : dispAt s (SchedEvent.dispatch w) jid = 0 := by simp [dispAt, hp]
      rw [hs, hd]
      unfold JobInv
      simp only [occCount, pendCount, flightCount, failCount, doneCount, doneOkCount,
        doneFailCount]
      exact ⟨h1, by omega, h3, h4, h5⟩
    | cons j rest =>
      rw [hp] at h1 h4
      simp only [List.countP_cons] at h1 h4
      have hs : schedStep s (SchedEvent.dispatch w) =
          { s with pending := rest,
                   in_flight := s.in_flight ++ [{ job := j, worker_name := w }] } := by
        simp [schedStep, hp]
      have hd : dispAt s (SchedEvent.dispatch w) jid
          = if j.job_id == jid then 1 else 0 := by
        simp only [dispAt, hp]
      rw [hs, hd]
      unfold JobInv
      simp only [occCount, pendCount, flightCount, failCount, doneCount, doneOkCount,
        doneFailCount, List.countP_append, List.countP_cons, List.countP_nil]
      refine ⟨by omega, by omega, h3, fun hrc => ?_, fun hrc => h5 hrc⟩
      have h4' := h4 hrc
      omega
  | promote =>
    have hd : dispAt s SchedEvent.promote jid = 0 := by
      unfold dispAt
      cases s.pending <;> rfl
    rw [hd]
    cases hl : s.failed.getLast? with
    | none =>
      have hs : schedStep s SchedEvent.promote = s := by simp [schedStep, hl]
      rw [hs]
      unfold JobInv
      simp only [occCount, pendCount, flightCount, failCount, doneCount, doneOkCount,
        doneFailCount]
      exact ⟨h1, by omega, h3, h4, h5⟩
    | some j =>
      have hs : schedStep s SchedEvent.promote =
          { s with failed := s.failed.dropLast, pending := j :: s.pending } := by
        simp [schedStep, hl]
      have hfl : List.countP (fun jb => jb.job_id == jid) s.failed
          = List.countP (fun jb => jb.job_id == jid) s.failed.dropLast
            + (if j.job_id == jid then 1 else 0) := by
        conv_lhs => rw [eq_dropLast_append_of_getLast? hl]
        rw [List.countP_append, List.countP_cons, List.countP_nil]
        omega
      rw [hs]
      unfold JobInv
      simp only [occCount, pendCount, flightCount, failCount, doneCount, doneOkCount,
        doneFailCount, List.countP_cons]
      refine ⟨by omega, by omega, h3, fun hrc => ?_, fun hrc => h5 hrc⟩
      have h4' := h4 hrc
      omega
  | result w r dl =>
    have hd : dispAt s (SchedEvent.result w r dl) jid = 0 := by
      unfold dispAt
      cases s.pending <;> rfl
    rw [hd]
    cases hx : extractFirst (fun j => j.job.job_id == r.job_id) s.in_flight with
    | none =>
      have hs : schedStep s (SchedEvent.result w r dl) = s := by
        show (s.handleResult w r dl).1 = s
        rw [handleResult_eq_none s w r dl hx]
      rw [hs]
      unfold JobInv
      simp only [occCount, pendCount, flightCount, failCount, doneCount, doneOkCount,
        doneFailCount]
      exact ⟨h1, by omega, h3, h4, h5⟩
    | some pr =>
      obtain ⟨entry, rest⟩ := pr
      obtain ⟨hpe, hcnt⟩ := extractFirst_some_prop hx
      have hpe' : entry.job.job_id = r.job_id := by simpa using hpe
      have hflight : List.countP (fun e2 => e2.job.job_id == jid) s.in_flight
          = List.countP (fun e2 => e2.job.job_id == jid) rest
            + (if entry.job.job_id == jid then 1 else 0) :=
        hcnt (fun e2 => e2.job.job_id == jid)
      by_cases hcomp : r.status = JobStatus.completed
      · have hs : schedStep s (SchedEvent.result w r dl) =
            { s with in_flight := rest,
                     worker_stats := fun n => if n = w then
                         { completed := (s.worker_stats w).completed + 1,
                           total_time_ms := (s.worker_stats w).total_time_ms
                             + r.duration_ms.getD 0 }
                       else s.worker_stats n,
                     completed := s.completed ++ [r] } := by
          show (s.handleResult w r dl).1 = _
          rw [handleResult_eq_completed s w r dl hx hcomp]
        rw [hs]
        unfold JobInv
        simp only [occCount, pendCount, flightCount, failCount, doneCount, doneOkCount,
          doneFailCount, List.countP_append, List.countP_cons, List.countP_nil, hcomp,
          beq_self_eq_true, Bool.and_true, Bool.not_true, Bool.and_false,
          Bool.false_eq_true, if_false]
        by_cases hr : r.job_id = jid
        · have het : (entry.job.job_id == jid) = true := by
            rw [hpe', hr]
            exact beq_self_eq_true jid
          have hrt : (r.job_id == jid) = true := by
            rw [hr]
            exact beq_self_eq_true jid
          rw [het] at hflight
          simp only [if_true] at hflight
          simp only [hrt, if_true]
          refine ⟨by omega, by omega, h3, fun hrc => ?_, fun hrc => ?_⟩
          · have h4' := h4 hrc
            omega
          · have h5' := h5 hrc
            omega
        · have het : (entry.job.job_id == jid) = false := by
            rw [hpe']
            exact beq_eq_false_iff_ne.mpr hr
          have hrt : (r.job_id == jid) = false := beq_eq_false_iff_ne.mpr hr
          rw [het] at hflight
          simp only [Bool.false_eq_true, if_false] at hflight
          simp only [hrt, Bool.false_eq_true, if_false]
          refine ⟨by omega, by omega, h3, fun hrc => ?_, fun hrc => ?_⟩
          · have h4' := h4 hrc
            omega
          · have h5' := h5 hrc
            omega
      · have hsplit := handleResult_eq_failed s w r dl hx hcomp
        have hstf : (r.status == JobStatus.completed) = false :=
          beq_eq_false_iff_ne.mpr hcomp
        by_cases hlt : s.retry_counts entry.job.job_id + 1 < s.max_retries
        · have hs : schedStep s (SchedEvent.result w r dl) =
              { s with in_flight := rest,
                       retry_counts := fun id => if id = entry.job.job_id
                         then s.retry_counts entry.job.job_id + 1 else s.retry_counts id,
                       failed := s.failed ++ [entry.job] } := by
            show (s.handleResult w r dl).1 = _
            rw [hsplit, if_pos hlt]
          rw [hs]
          unfold JobInv
          simp only [occCount, pendCount, flightCount, failCount, doneCount, doneOkCount,
            doneFailCount, List.countP_append, List.countP_cons, List.countP_nil]
          by_cases hj : jid = entry.job.job_id
          · rw [← hj] at hflight hlt ⊢
            simp only [beq_self_eq_true, if_true, eq_self_iff_true] at hflight ⊢
            refine ⟨by omega, by omega, by omega, fun hrc => by omega, fun hrc => by omega⟩
          · have het : (entry.job.job_id == jid) = false :=
              beq_eq_false_iff_ne.mpr (fun hc => hj hc.symm)
            rw [het] at hflight ⊢
            simp only [Bool.false_eq_true, if_false, if_neg hj] at hflight ⊢
            refine ⟨by omega, by omega, h3, fun hrc => ?_, fun hrc => h5 hrc⟩
            have h4' := h4 hrc
            omega
        · have hs : schedStep s (SchedEvent.result w r dl) =
              { s with in_flight := rest,
                       retry_counts := fun id => if id = entry.job.job_id
                         then s.retry_counts entry.job.job_id + 1 else s.retry_counts id,
                       completed := s.completed ++ [r] } := by
            show (s.handleResult w r dl).1 = _
            rw [hsplit, if_neg hlt]
          rw [hs]
          unfold JobInv
          simp only [occCount, pendCount, flightCount, failCount, doneCount, doneOkCount,
            doneFailCount, List.countP_append, List.countP_cons, List.countP_nil, hstf,
            Bool.and_false, Bool.not_false, Bool.and_true, Bool.false_eq_true, if_false]
          by_cases hj : jid = entry.job.job_id
          · have hrj : (r.job_id == jid) = true := by
              rw [← hpe', ← hj]
              exact beq_self_eq_true jid
            rw [← hj] at hflight hlt ⊢
            simp only [beq_self_eq_true, if_true, eq_self_iff_true, hrj] at hflight ⊢
            have hlt2 : s.retry_counts jid < s.max_retries := by
              by_cases hmaxeq : s.retry_counts jid = s.max_retries
              · have h4' := h4 hmaxeq
                omega
              · omega
            refine ⟨by omega, by omega, by omega, fun hrc => by omega, fun hrc => by omega⟩
          · have het : (entry.job.job_id == jid) = false :=
              beq_eq_false_iff_ne.mpr (fun hc => hj hc.symm)
            have hrj : (r.job_id == jid) = false := by
              rw [← hpe']
              exact het
            rw [het] at hflight
            simp only [Bool.false_eq_true, if_false] at hflight
            simp only [hrj, Bool.false_eq_true, if_false, if_neg hj]
            refine ⟨by omega, by omega, h3, fun hrc => ?_, fun hrc => ?_⟩
            · have h4' := h4 hrc
              omega
            · have h5' := h5 hrc
              omega

/-- The invariant holds along any trace, the dispatch counter accumulating. -/
theorem jobInv_run : ∀ (evs : List SchedEvent) (s : JobScheduler) (jid : String) (d : Nat),
    JobInv s jid d → JobInv (schedRun s evs) jid (d + dispatchCount s evs jid) := by
  intro evs
  induction evs with
  | nil =>
    intro s jid d h
    simpa [schedRun, dispatchCount] using h
  | cons e evs ih =>
    intro s jid d h
    have h2 := ih (schedStep s e) jid (d + dispAt s e jid) (jobInv_step s e jid d h)
    have harr : d + dispAt s e jid + dispatchCount (schedStep s e) evs jid
        = d + dispatchCount s (e :: evs) jid := by
      simp [dispatchCount]
      omega
    rw [harr] at h2
    exact h2

/-- The invariant bounds the dispatch counter by the retry budget. -/
theorem jobInv_le_max (s : JobScheduler) (jid : String) (d : Nat)
    (h : JobInv s jid d) : d ≤ s.max_retries := by
  obtain ⟨h1, h2, h3, h4, h5⟩ := h
  have hsplit : doneCount s jid = doneOkCount s jid + doneFailCount s jid := by
    unfold doneCount doneOkCount doneFailCount
    exact countP_split _ _ _
  by_cases hmax : s.retry_counts jid = s.max_retries
  · have h4' := h4 hmax
    have h5' := h5 hmax
    unfold occCount at *
    omega
  · unfold occCount at *
    omega

theorem schedStep_max_retries (s : JobScheduler) (e : SchedEvent) :
    (schedStep s e).max_retries = s.max_retries := by
  cases e with
  | dispatch w =>
    unfold schedStep
    cases s.pending <;> rfl
  | promote =>
    unfold schedStep
    cases s.failed.getLast? <;> rfl
  | result w r dl =>
    show ((s.handleResult w r dl).1).max_retries = s.max_retries
    cases hx : extractFirst (fun j => j.job.job_id == r.job_id) s.in_flight with
    | none => rw [handleResult_eq_none s w r dl hx]
    | some pr =>
      obtain ⟨entry, rest⟩ := pr
      by_cases hcomp : r.status = JobStatus.completed
      · rw [handleResult_eq_completed s w r dl hx hcomp]
      · have heq := handleResult_eq_failed s w r dl hx hcomp
        by_cases hlt : s.retry_counts entry.job.job_id + 1 < s.max_retries
        · rw [heq, if_pos hlt]
        · rw [heq, if_neg hlt]

theorem schedRun_max_retries : ∀ (evs : List SchedEvent) (s : JobScheduler),
    (schedRun s evs).max_retries = s.max_retries := by
  intro evs
  induction evs with
  | nil => intro s; rfl
  | cons e evs ih =>
    intro s
    rw [schedRun, ih, schedStep_max_retries]

/-- Every entry of `completed` is either pre-existing or one of the results
delivered by the trace. -/
theorem handleResult_completed_cases (s : JobScheduler) (w : String) (r : TtsResult)
    (dl : Bool) :
    ((s.handleResult w r dl).1).completed = s.completed ∨
    ((s.handleResult w r dl).1).completed = s.completed ++ [r] := by
  cases hx : extractFirst (fun j => j.job.job_id == r.job_id) s.in_flight with
  | none =>
    left
    rw [handleResult_eq_none s w r dl hx]
  | some pr =>
    obtain ⟨entry, rest⟩ := pr
    by_cases hcomp : r.status = JobStatus.completed
    · right
      rw [handleResult_eq_completed s w r dl hx hcomp]
    · have heq := handleResult_eq_failed s w r dl hx hcomp
      by_cases hlt : s.retry_counts entry.job.job_id + 1 < s.max_retries
      · left
        rw [heq, if_pos hlt]
      · right
        rw [heq, if_neg hlt]

theorem completed_mem_schedRun : ∀ (evs : List SchedEvent) (s : JobScheduler) (r : TtsResult),
    r ∈ (schedRun s evs).completed → r ∈ s.completed ∨ r ∈ traceResults evs := by
  intro evs
  induction evs with
  | nil => intro s r h; exact Or.inl h
  | cons e evs ih =>
    intro s r h
    rcases ih (schedStep s e) r h with h' | h'
    · cases e with
      | dispatch w =>
        have hc : (schedStep s (SchedEvent.dispatch w)).completed = s.completed := by
          unfold schedStep
          cases s.pending <;> rfl
        rw [hc] at h'
        exact Or.inl h'
      | promote =>
        have hc : (schedStep s SchedEvent.promote).completed = s.completed := by
          unfold schedStep
          cases s.failed.getLast? <;> rfl
        rw [hc] at h'
        exact Or.inl h'
      | result w r2 dl =>
        rcases handleResult_completed_cases s w r2 dl with hc | hc
        · rw [show schedStep s (SchedEvent.result w r2 dl) = (s.handleResult w r2 dl).1
            from rfl, hc] at h'
          exact Or.inl h'
        · rw [show schedStep s (SchedEvent.result w r2 dl) = (s.handleResult w r2 dl).1
            from rfl, hc] at h'
          rcases List.mem_append.mp h' with h'' | h''
          · exact Or.inl h''
          · right
            simp only [traceResults]
            simp at h''
            simp [h'']
    · right
      cases e with
      | dispatch w => exact h'
      | promote => exact h'
      | result w r2 dl => exact List.mem_cons_of_mem _ h'

/-- C3: over every event trace of the scheduler loop started from a state in
which the job `jid` occurs exactly once in `pending` (and nowhere else, with
its retry count at 0) and `max_retries ≥ 1` (the source fixes it at 3): the
job is dispatched at most `max_retries` times; when the loop's termination
condition holds (`pending`, `in_flight` and `failed` all empty) the job has
exactly one terminal result in `completed`; every `completed` entry for the
job is one of the results actually delivered for it (in the all-failures
scenario, the one that exhausted the budget, carrying its error text).
Moreover each failed- or timeout-status result that matches an in-flight
entry increments the job's retry count by exactly one and re-queues the job
if and only if the new count is strictly below `max_retries`. -/
theorem scheduler_retry_budget (s₀ : JobScheduler) (evs : List SchedEvent) (jid : String)
    (hmax : 1 ≤ s₀.max_retries)
    (hpend : pendCount s₀ jid = 1)
    (hflight : flightCount s₀ jid = 0)
    (hfail : failCount s₀ jid = 0)
    (hdone : doneCount s₀ jid = 0)
    (hrc : s₀.retry_counts jid = 0) :
    dispatchCount s₀ evs jid ≤ s₀.max_retries ∧
    ((schedRun s₀ evs).pending = [] → (schedRun s₀ evs).in_flight = [] →
      (schedRun s₀ evs).failed = [] → doneCount (schedRun s₀ evs) jid = 1) ∧
    (∀ r ∈ (schedRun s₀ evs).completed, r.job_id = jid → r ∈ traceResults evs) ∧
    (∀ (s : JobScheduler) (w : String) (r : TtsResult) (dl : Bool)
        (entry : InFlightJob) (rest : List InFlightJob),
      extractFirst (fun j => j.job.job_id == r.job_id) s.in_flight = some (entry, rest) →
      r.status ≠ JobStatus.completed →
      ((s.handleResult w r dl).1).retry_counts r.job_id = s.retry_counts r.job_id + 1 ∧
      (((s.handleResult w r dl).1).failed = s.failed ++ [entry.job] ↔
        s.retry_counts r.job_id + 1 < s.max_retries)) := by
  have hsplit0 : doneCount s₀ jid = doneOkCount s₀ jid + doneFailCount s₀ jid := by
    unfold doneCount doneOkCount doneFailCount
    exact countP_split _ _ _
  have hinv0 : JobInv s₀ jid 0 := by
    refine ⟨?_, ?_, ?_, ?_, ?_⟩
    · unfold occCount
      omega
    · unfold occCount at *
      omega
    · omega
    · intro h
      omega
    · intro h
      omega
  have hinv := jobInv_run evs s₀ jid 0 hinv0
  have hmaxrun := schedRun_max_retries evs s₀
  refine ⟨?_, ?_, ?_, ?_⟩
  · have := jobInv_le_max _ jid _ hinv
    omega
  · intro hp hf hfl
    obtain ⟨h1, _, _, _, _⟩ := hinv
    unfold occCount pendCount flightCount failCount at h1
    rw [hp, hf, hfl] at h1
    simpa using h1
  · intro r hr hjid
    rcases completed_mem_schedRun evs s₀ r hr with h' | h'
    · exfalso
      have := List.countP_eq_zero.mp hdone r h'
      simp [hjid] at this
    · exact h'
  · intro s w r dl entry rest hx hst
    obtain ⟨hpe, _⟩ := extractFirst_some_prop hx
    have hpe' : entry.job.job_id = r.job_id := by simpa using hpe
    have heq := handleResult_eq_failed s w r dl hx hst
    by_cases hlt : s.retry_counts entry.job.job_id + 1 < s.max_retries
    · rw [heq, if_pos hlt]
      constructor
      · simp [hpe']
      · constructor
        · intro _
          rw [← hpe']
          exact hlt
        · intro _
          rfl
    · rw [heq, if_neg hlt]
      constructor
      · simp [hpe']
      · constructor
        · intro hcontra
          exfalso
          have : s.failed.length = s.failed.length + 1 := by
            conv_lhs => rw [hcontra]
            simp
          omega
        · intro hcontra
          rw [← hpe'] at hcontra
          exact absurd hcontra hlt

/-- The single job of scenario S3. -/
def jobJ : TtsJob := TtsJob.new "sess" 0 0 "text" TtsJobOptions.default 0

/-- A failed-status result for the S3 job carrying error text `e`, shaped as
`TtsResult::failure` builds it. -/
def failR (e : String) : TtsResult :=
  { version := PROTOCOL_VERSION, job_id := mkJobId "sess" 0 0,
    status := JobStatus.failed, duration_ms := none, audio_size_bytes := none,
    audio_path := none, error := some e, completed_at := 0 }

/-- Scheduler started with the single S3 job enqueued. -/
def schedS3 : JobScheduler := (JobScheduler.new "tmp").enqueue [jobJ]

/-- Scenario S3: the worker fails the job three consecutive times. -/
def traceS3 : List SchedEvent :=
  [SchedEvent.dispatch "w1", SchedEvent.result "w1" (failR "e1") true,
   SchedEvent.promote, SchedEvent.dispatch "w1", SchedEvent.result "w1" (failR "e2") true,
   SchedEvent.promote, SchedEvent.dispatch "w1", SchedEvent.result "w1" (failR "e3") true]

/-- C3 witness: scenario S3 with `max_retries = 3`. The job is dispatched at
most three times, the drained final state holds exactly one terminal result
for it, and that result is the third failure, carrying the last error text
`e3`. -/
theorem scheduler_retry_budget_witness :
    dispatchCount schedS3 traceS3 (mkJobId "sess" 0 0) ≤ schedS3.max_retries ∧
    doneCount (schedRun schedS3 traceS3) (mkJobId "sess" 0 0) = 1 ∧
    (schedRun schedS3 traceS3).completed = [failR "e3"] ∧
    (failR "e3").error = some "e3" := by
  have h := scheduler_retry_budget schedS3 traceS3 (mkJobId "sess" 0 0)
    (by decide) (by decide) (by decide) (by decide) (by decide) (by decide)
  exact ⟨h.1, h.2.1 (by decide) (by decide) (by decide), by decide, by decide⟩

/- ===================== Session store (session/types.rs, session/persistence.rs) ===================== -/

/-- Status of a single text chunk (`ChunkStatus`); `audio_path : PathBuf` is
modelled as `String`. -/
structure ChunkStatus where
  chapter_id : Nat
  chunk_id : Nat
  audio_path : Option String
  completed : Bool
  error : Option String
deriving DecidableEq, Repr

/-- Embedding of `ChunkStatus::new`. -/
def ChunkStatus.new (chapter_id chunk_id : Nat) : ChunkStatus :=
  { chapter_id := chapter_id, chunk_id := chunk_id, audio_path := none,
    completed := false, error := none }

/-- Embedding of `ChunkStatus::mark_completed`. -/
def ChunkStatus.mark_completed (c : ChunkStatus) (audio_path : String) : ChunkStatus :=
  { c with audio_path := some audio_path, completed := true, error := none }

/-- Embedding of `ChunkStatus::mark_failed` (does not set `completed`). -/
def ChunkStatus.mark_failed (c : ChunkStatus) (error : String) : ChunkStatus :=
  { c with error := some error }

/-- A generation session with checkpoint data (`Session`). -/
structure Session where
  session_id : String
  book_path : String
  book_hash : String
  title : String
  author : String
  total_chapters : Nat
  total_chunks : Nat
  chunks : List ChunkStatus
  current_chapter : Nat
  current_chunk : Nat
  created_at : Nat
  updated_at : Nat
  completed : Bool
deriving DecidableEq, Repr

/-- Embedding of `Session::new`. -/
def Session.new (session_id book_path book_hash title author : String)
    (chunks : List ChunkStatus) (now : Nat) : Session :=
  { session_id := session_id, book_path := book_path, book_hash := book_hash,
    title := title, author := author,
    total_chapters := (((chunks.map (fun c => c.chapter_id)).max?).map (fun m => m + 1)).getD 0,
    total_chunks := chunks.length, chunks := chunks,
    current_chapter := 0, current_chunk := 0,
    created_at := now, updated_at := now, completed := false }

/-- Embedding of `Session::completed_count`. -/
def Session.completed_count (s : Session) : Nat :=
  (s.chunks.filter (fun c => c.completed)).length

/-- Embedding of `save_session`: every persisted mutation stamps
`updated_at`; the disk write itself is effectful and outside the model. -/
def saveSession (s : Session) (now : Nat) : Session := { s with updated_at := now }

/-- The `for`-loop-with-`break` used by `mark_chunk_complete` and
`mark_chunk_error`: update the first chunk matching `(chapter_id, chunk_id)`,
leave the rest untouched. -/
def updateFirstChunk (f : ChunkStatus → ChunkStatus) (chapter_id chunk_id : Nat) :
    List ChunkStatus → List ChunkStatus
  | [] => []
  | c :: rest =>
    if c.chapter_id == chapter_id && c.chunk_id == chunk_id then f c :: rest
    else c :: updateFirstChunk f chapter_id chunk_id rest

/-- Embedding of `get_next_chunk`. -/
def get_next_chunk (s : Session) : Option (Nat × Nat) :=
  (s.chunks.find? (fun c => !c.completed)).map (fun c => (c.chapter_id, c.chunk_id))

/-- The cursor-update block of `mark_chunk_complete`: advance
`current_(chapter, chunk)` to the next incomplete chunk, or set the session
`completed` flag when none remains. -/
def advanceCursor (s1 : Session) : Session :=
  match get_next_chunk s1 with
  | some (nch, nck) => { s1 with current_chapter := nch, current_chunk := nck }
  | none => { s1 with completed := true }

/-- Embedding of `mark_chunk_complete`: mark the chunk, advance the cursor to
the next incomplete chunk (or set the session `completed`), persist. -/
def mark_chunk_complete (s : Session) (chapter_id chunk_id : Nat)
    (audio_path : String) (now : Nat) : Session :=
  saveSession (advanceCursor { s with
    chunks := updateFirstChunk (fun c => c.mark_completed audio_path)
      chapter_id chunk_id s.chunks }) now

/-- Embedding of `mark_chunk_error`: record the error text, leave
`completed` untouched, persist. -/
def mark_chunk_error (s : Session) (chapter_id chunk_id : Nat)
    (error : String) (now : Nat) : Session :=
  saveSession { s with
    chunks := updateFirstChunk (fun c => c.mark_failed error)
      chapter_id chunk_id s.chunks } now

/-- Embedding of `get_progress`; the `f64` percentage is modelled in `ℚ`. -/
def get_progress (s : Session) : Nat × Nat × ℚ :=
  let completed := s.completed_count
  let total := s.total_chunks
  let percentage : ℚ := if 0 < total then (completed : ℚ) / (total : ℚ) * 100 else 0
  (completed, total, percentage)

/-- Sort ordering of `get_chapter_audio_files`: `sort_by_key(|c| c.chunk_id)`. -/
def chunkLe (a b : ChunkStatus) : Prop := a.chunk_id ≤ b.chunk_id

instance : DecidableRel chunkLe := fun a b => by unfold chunkLe; infer_instance

instance : IsTotal ChunkStatus chunkLe := ⟨fun a b => by unfold chunkLe; omega⟩

instance : IsTrans ChunkStatus chunkLe := ⟨fun a b c => by unfold chunkLe; omega⟩

/-- Chunks of a chapter that are completed and have an audio path, stably
sorted by `chunk_id` (Rust's stable `sort_by_key`, modelled by insertion
sort). -/
def chapterChunksSorted (s : Session) (chapter_id : Nat) : List ChunkStatus :=
  List.insertionSort chunkLe
    (s.chunks.filter (fun c => c.chapter_id == chapter_id && c.completed
      && c.audio_path.isSome))

/-- Embedding of `get_chapter_audio_files`. -/
def get_chapter_audio_files (s : Session) (chapter_id : Nat) : List String :=
  (chapterChunksSorted s chapter_id).filterMap (fun c => c.audio_path)

/-- One entry of the sessions directory as `find_session_for_book` sees it:
whether the file has a `.json` extension, and the outcome of opening and
JSON-parsing it (`none` models both an unreadable and a corrupt file). -/
structure SessionDirEntry where
  is_json : Bool
  parsed : Option Session
deriving DecidableEq, Repr

/-- Sort ordering of `find_session_for_book`:
`sort_by(|a, b| b.updated_at.cmp(&a.updated_at))`, i.e. most recent first. -/
def moreRecentFirst (a b : Session) : Prop := b.updated_at ≤ a.updated_at

instance : DecidableRel moreRecentFirst := fun a b => by unfold moreRecentFirst; infer_instance

instance : IsTotal Session moreRecentFirst := ⟨fun a b => by unfold moreRecentFirst; omega⟩

instance : IsTrans Session moreRecentFirst := ⟨fun a b c => by unfold moreRecentFirst; omega⟩

/-- Body of the collection loop of `find_session_for_book`: an entry
contributes a session when it has the `.json` extension, opens and parses,
and the parsed session matches the book hash and is incomplete. -/
def sessionEntryMatch (book_hash : String) (e : SessionDirEntry) : Option Session :=
  if e.is_json then
    match e.parsed with
    | some session =>
      if session.book_hash == book_hash && !session.completed then some session
      else none
    | none => none
  else none

/-- Embedding of `find_session_for_book`, over the directory listing. The
hash of the source file is passed in as `book_hash` (computing it reads the
file). Matching sessions are collected in directory order, sorted by
`updated_at` descending (stable `sort_by`, modelled by insertion sort) and
the first is returned; entries that fail to open or parse are skipped. -/
def find_session_for_book (book_hash : String) (entries : List SessionDirEntry) :
    Option Session :=
  let matching := entries.filterMap (sessionEntryMatch book_hash)
  match matching with
  | [] => none
  | _ :: _ => (List.insertionSort moreRecentFirst matching).head?

/-- Body of the session-update loop of `run_distributed` (`main.rs`): for
one result, re-parse chapter and chunk from the job id; a completed result
marks the chunk complete with the local download path
`temp_dir.join(format!("{}.wav", job_id))`, any other result records the
error text; unparseable ids are skipped. -/
def updateSessionStep (temp_dir : String) (now : Nat) (sess : Session)
    (r : TtsResult) : Session :=
  match parseChapterFromJobId r.job_id, parseChunkFromJobId r.job_id with
  | some chapter_id, some chunk_id =>
    match r.status with
    | JobStatus.completed =>
      mark_chunk_complete sess chapter_id chunk_id
        (temp_dir ++ "/" ++ r.job_id ++ ".wav") now
    | _ => mark_chunk_error sess chapter_id chunk_id
        (r.error.getD "Unknown error") now
  | _, _ => sess

/-- Embedding of the session-update loop of `run_distributed`. -/
def updateSessionWithResults (session : Session) (results : List TtsResult)
    (temp_dir : String) (now : Nat) : Session :=
  results.foldl (updateSessionStep temp_dir now) session

/- ===================== C6: ChunkStatus invariants ===================== -/

/-- The invariants the specification states for a chunk: completed implies a
non-empty audio path, and completed implies no error. -/
def ChunkInv (c : ChunkStatus) : Prop :=
  (c.completed = true → ∃ p, c.audio_path = some p ∧ p ≠ "") ∧
  (c.completed = true → c.error = none)

/-- Whether the first chunk matching `(chapter_id, chunk_id)` is completed. -/
def chunkDone (s : Session) (chapter_id chunk_id : Nat) : Bool :=
  match s.chunks.find? (fun c => c.chapter_id == chapter_id && c.chunk_id == chunk_id) with
  | some c => c.completed
  | none => false

/-- A session mutation: one `mark_chunk_complete` or `mark_chunk_error`
call. -/
inductive SessionOp where
  | complete (chapter_id chunk_id : Nat) (audio_path : String) (now : Nat)
  | fail (chapter_id chunk_id : Nat) (error : String) (now : Nat)

def applySessionOp (s : Session) : SessionOp → Session
  | SessionOp.complete ch ck p now => mark_chunk_complete s ch ck p now
  | SessionOp.fail ch ck e now => mark_chunk_error s ch ck e now

def applySessionOps (s : Session) : List SessionOp → Session
  | [] => s
  | op :: ops => applySessionOps (applySessionOp s op) ops

/-- Admissible call sequences: completions carry a non-empty path, and an
error is never recorded against a chunk that is already completed. -/
def AdmissibleOps : Session → List SessionOp → Prop
  | _, [] => True
  | s, op :: ops =>
    (match op with
     | SessionOp.complete _ _ p _ => p ≠ ""
     | SessionOp.fail ch ck _ _ => chunkDone s ch ck = false) ∧
    AdmissibleOps (applySessionOp s op) ops

/-- Updating the first matching chunk preserves a pointwise property,
provided the update of the chunk that `find?` locates satisfies it. -/
theorem updateFirstChunk_pres (P : ChunkStatus → Prop) (f : ChunkStatus → ChunkStatus)
    (ch ck : Nat) :
    ∀ (l : List ChunkStatus), (∀ c ∈ l, P c) →
      (∀ c, l.find? (fun c => c.chapter_id == ch && c.chunk_id == ck) = some c → P (f c)) →
      ∀ c ∈ updateFirstChunk f ch ck l, P c := by
  intro l
  induction l with
  | nil =>
    intro _ _ c hc
    simp [updateFirstChunk] at hc
  | cons a rest ih =>
    intro hl hf c hc
    by_cases ha : (a.chapter_id == ch && a.chunk_id == ck) = true
    · simp only [updateFirstChunk] at hc
      rw [if_pos ha] at hc
      rcases List.mem_cons.mp hc with rfl | hc
      · apply hf
        exact List.find?_cons_of_pos _ ha
      · exact hl c (List.mem_cons_of_mem _ hc)
    · simp only [updateFirstChunk] at hc
      rw [if_neg ha] at hc
      rcases List.mem_cons.mp hc with rfl | hc
      · exact hl _ (List.mem_cons_self _ _)
      · refine ih (fun c2 hc2 => hl c2 (List.mem_cons_of_mem _ hc2)) ?_ c hc
        intro c2 hc2
        apply hf
        rw [List.find?_cons_of_neg _ (by simpa using ha)]
        exact hc2

theorem advanceCursor_chunks (s1 : Session) : (advanceCursor s1).chunks = s1.chunks := by
  unfold advanceCursor
  cases h : get_next_chunk s1 with
  | none => rfl
  | some pr =>
    obtain ⟨nch, nck⟩ := pr
    rfl

theorem mark_chunk_complete_chunks (s : Session) (ch ck : Nat) (p : String) (now : Nat) :
    (mark_chunk_complete s ch ck p now).chunks
      = updateFirstChunk (fun c => c.mark_completed p) ch ck s.chunks :=
  advanceCursor_chunks _

theorem mark_chunk_error_chunks (s : Session) (ch ck : Nat) (e : String) (now : Nat) :
    (mark_chunk_error s ch ck e now).chunks
      = updateFirstChunk (fun c => c.mark_failed e) ch ck s.chunks := rfl

/-- C6 (amended): for every session whose chunks all satisfy the invariant
and every admissible sequence of `mark_chunk_complete` / `mark_chunk_error`
calls — completions given a non-empty path, errors never recorded on an
already-completed chunk — every chunk still satisfies
`completed → audio_path set and non-empty` and `completed → error unset`
afterwards; and `mark_chunk_error` never sets `completed`, unconditionally,
so a chunk with an error and `completed = false` stays retryable. (The
unamended claim, over every sequence, fails: an error recorded on an
already-completed chunk leaves `completed = true` with `error` set, and a
completion with an empty path leaves an empty `audio_path`.) -/
theorem chunk_invariants (s : Session) (ops : List SessionOp)
    (h0 : ∀ c ∈ s.chunks, ChunkInv c) (hadm : AdmissibleOps s ops) :
    (∀ c ∈ (applySessionOps s ops).chunks, ChunkInv c) ∧
    (∀ (s' : Session) (ch ck : Nat) (e : String) (now : Nat),
      (mark_chunk_error s' ch ck e now).chunks.map (fun c => c.completed)
        = s'.chunks.map (fun c => c.completed)) := by
  constructor
  · induction ops generalizing s with
    | nil => exact h0
    | cons op ops ih =>
      obtain ⟨hop, hadm'⟩ := hadm
      refine ih (applySessionOp s op) ?_ hadm'
      cases op with
      | complete ch ck p now =>
        intro c hc
        rw [show applySessionOp s (SessionOp.complete ch ck p now)
            = mark_chunk_complete s ch ck p now from rfl,
          mark_chunk_complete_chunks] at hc
        refine updateFirstChunk_pres ChunkInv _ ch ck s.chunks h0 ?_ c hc
        intro c2 _
        exact ⟨fun _ => ⟨p, rfl, hop⟩, fun _ => rfl⟩
      | fail ch ck e now =>
        intro c hc
        rw [show applySessionOp s (SessionOp.fail ch ck e now)
            = mark_chunk_error s ch ck e now from rfl,
          mark_chunk_error_chunks] at hc
        refine updateFirstChunk_pres ChunkInv _ ch ck s.chunks h0 ?_ c hc
        intro c2 hc2
        have hnotdone : c2.completed = false := by
          have hop' : chunkDone s ch ck = false := hop
          unfold chunkDone at hop'
          rw [hc2] at hop'
          exact hop'
        constructor
        · intro hcomp
          rw [show (c2.mark_failed e).completed = c2.completed from rfl] at hcomp
          rw [hnotdone] at hcomp
          cases hcomp
        · intro hcomp
          rw [show (c2.mark_failed e).completed = c2.completed from rfl] at hcomp
          rw [hnotdone] at hcomp
          cases hcomp
  · intro s' ch ck e now
    rw [mark_chunk_error_chunks]
    induction s'.chunks with
    | nil => rfl
    | cons a rest ih =>
      by_cases ha : (a.chapter_id == ch && a.chunk_id == ck) = true
      · simp only [updateFirstChunk]
        rw [if_pos ha]
        rfl
      · simp only [updateFirstChunk]
        rw [if_neg ha]
        simp only [List.map_cons]
        rw [ih]

/-- Fresh two-chunk session for the C6 witness. -/
def sessW : Session :=
  Session.new "s1" "/b.epub" "hash" "T" "A" [ChunkStatus.new 0 0, ChunkStatus.new 0 1] 0

/-- Admissible op sequence: complete chunk (0,0) with a non-empty path, then
record an error on the still-incomplete chunk (0,1). -/
def opsW : List SessionOp :=
  [SessionOp.complete 0 0 "a.wav" 1, SessionOp.fail 0 1 "boom" 2]

/-- C6 witness: after completing chunk (0,0) and failing chunk (0,1) the
invariants hold, chunk (0,0) is completed and chunk (0,1) is retryable. -/
theorem chunk_invariants_witness :
    (∀ c ∈ (applySessionOps sessW opsW).chunks, ChunkInv c) ∧
    chunkDone (applySessionOps sessW opsW) 0 0 = true ∧
    chunkDone (applySessionOps sessW opsW) 0 1 = false := by
  have h0 : ∀ c ∈ sessW.chunks, ChunkInv c := by
    intro c hc
    simp [sessW, Session.new] at hc
    rcases hc with rfl | rfl <;>
      exact ⟨fun h => by simp [ChunkStatus.new] at h, fun h => by simp [ChunkStatus.new] at h⟩
  have hadm : AdmissibleOps sessW opsW := ⟨by decide, by decide, trivial⟩
  have h := chunk_invariants sessW opsW h0 hadm
  exact ⟨h.1, by decide, by decide⟩

/-- One-chunk session for the C6 counterexample. -/
def sessC : Session := Session.new "s2" "/b.epub" "hash" "T" "A" [ChunkStatus.new 0 0] 0

/-- C6 counterexample: the invariants of the claim are NOT preserved by every
sequence of the two mark operations. Recording an error on an
already-completed chunk leaves `completed = true` with `error` set, and
completing a chunk with an empty path leaves `completed = true` with an
empty `audio_path`. -/
theorem chunk_invariants_counterexample :
    ((mark_chunk_error (mark_chunk_complete sessC 0 0 "a.wav" 1) 0 0 "boom" 2).chunks.head?).map
        (fun c => (c.completed, c.error)) = some (true, some "boom") ∧
    ((mark_chunk_complete sessC 0 0 "" 1).chunks.head?).map
        (fun c => (c.completed, c.audio_path)) = some (true, some "") := by
  exact ⟨by decide, by decide⟩

/- ===================== C9: assembly ordering ===================== -/

/-- Two permuted lists that are both strictly sorted on a numeric key are
equal. -/
theorem eq_of_perm_of_pairwise_lt {α} (key : α → Nat) :
    ∀ {l₁ l₂ : List α}, l₁.Perm l₂ →
      l₁.Pairwise (fun a b => key a < key b) →
      l₂.Pairwise (fun a b => key a < key b) → l₁ = l₂ := by
  intro l₁
  induction l₁ with
  | nil =>
    intro l₂ hp _ _
    exact (List.Perm.eq_nil hp.symm).symm
  | cons a t ih =>
    intro l₂ hp hs₁ hs₂
    cases l₂ with
    | nil => exact absurd (List.Perm.eq_nil hp) (by simp)
    | cons b t₂ =>
      have hab : a = b := by
        by_contra hne
        have hamem : a ∈ b :: t₂ := hp.mem_iff.mp (List.mem_cons_self a t)
        have hbmem : b ∈ a :: t := hp.mem_iff.mpr (List.mem_cons_self b t₂)
        rcases List.mem_cons.mp hamem with h | h
        · exact hne h
        · rcases List.mem_cons.mp hbmem with h' | h'
          · exact hne h'.symm
          · have h1 := (List.pairwise_cons.mp hs₂).1 a h
            have h2 := (List.pairwise_cons.mp hs₁).1 b h'
            omega
      subst hab
      rw [ih hp.cons_inv (List.pairwise_cons.mp hs₁).2 (List.pairwise_cons.mp hs₂).2]

theorem pairwise_lt_of_le_of_ne {α} (key : α → Nat) {l : List α}
    (hle : l.Pairwise (fun a b => key a ≤ key b))
    (hne : l.Pairwise (fun a b => key a ≠ key b)) :
    l.Pairwise (fun a b => key a < key b) :=
  (hle.and hne).imp (fun h => lt_of_le_of_ne h.1 h.2)

/-- C9: `get_chapter_audio_files` returns exactly the audio paths of the
chapter's chunks that are completed and carry an audio path (as a multiset),
taken from a list of those chunks sorted by `chunk_id` ascending; and —
whenever the session's chunks have pairwise-distinct `(chapter_id,
chunk_id)` identities — the output is determined by the multiset of chunk
records alone, hence independent of the order in which chunks were
completed or stored. -/
theorem get_chapter_audio_files_spec (s : Session) (chapter_id : Nat) :
    (get_chapter_audio_files s chapter_id).Perm
      ((s.chunks.filter (fun c => c.chapter_id == chapter_id && c.completed
        && c.audio_path.isSome)).filterMap (fun c => c.audio_path)) ∧
    (chapterChunksSorted s chapter_id).Pairwise (fun a b => a.chunk_id ≤ b.chunk_id) ∧
    (∀ s' : Session, s'.chunks.Perm s.chunks →
      s.chunks.Pairwise (fun a b => a.chapter_id ≠ b.chapter_id ∨ a.chunk_id ≠ b.chunk_id) →
      get_chapter_audio_files s' chapter_id = get_chapter_audio_files s chapter_id) := by
  have hsymm : ∀ {x y : ChunkStatus}, x.chunk_id ≠ y.chunk_id → y.chunk_id ≠ x.chunk_id :=
    fun h => Ne.symm h
  refine ⟨?_, ?_, ?_⟩
  · unfold get_chapter_audio_files chapterChunksSorted
    exact (List.perm_insertionSort chunkLe _).filterMap _
  · unfold chapterChunksSorted
    exact List.sorted_insertionSort chunkLe _
  · intro s' hperm hids
    have hneF : (s.chunks.filter (fun c => c.chapter_id == chapter_id && c.completed
        && c.audio_path.isSome)).Pairwise (fun a b => a.chunk_id ≠ b.chunk_id) := by
      have hsub : (s.chunks.filter (fun c => c.chapter_id == chapter_id && c.completed
          && c.audio_path.isSome)).Sublist s.chunks := List.filter_sublist _
      have hpw := List.Pairwise.sublist hsub hids
      refine List.Pairwise.imp_of_mem ?_ hpw
      intro a b ha hb hr
      have ha' := (List.mem_filter.mp ha).2
      have hb' := (List.mem_filter.mp hb).2
      simp only [Bool.and_eq_true, beq_iff_eq] at ha' hb'
      rcases hr with h | h
      · exact absurd (ha'.1.1.trans hb'.1.1.symm) h
      · exact h
    have hpermF : (s'.chunks.filter (fun c => c.chapter_id == chapter_id && c.completed
        && c.audio_path.isSome)).Perm
        (s.chunks.filter (fun c => c.chapter_id == chapter_id && c.completed
          && c.audio_path.isSome)) := hperm.filter _
    have hneF' := (hpermF.pairwise_iff hsymm).mpr hneF
    have hle : ∀ F : List ChunkStatus, (List.insertionSort chunkLe F).Pairwise
        (fun a b => a.chunk_id ≤ b.chunk_id) :=
      fun F => List.sorted_insertionSort chunkLe F
    unfold get_chapter_audio_files chapterChunksSorted
    congr 1
    apply eq_of_perm_of_pairwise_lt (fun c => c.chunk_id)
    · exact ((List.perm_insertionSort chunkLe _).trans hpermF).trans
        (List.perm_insertionSort chunkLe _).symm
    · exact pairwise_lt_of_le_of_ne (fun c : ChunkStatus => c.chunk_id) (hle _)
        (((List.perm_insertionSort chunkLe _).pairwise_iff hsymm).mpr hneF')
    · exact pairwise_lt_of_le_of_ne (fun c : ChunkStatus => c.chunk_id) (hle _)
        (((List.perm_insertionSort chunkLe _).pairwise_iff hsymm).mpr hneF)

/-- Scenario S6: one chapter whose chunks were completed (and stored) in the
order `[2, 0, 1, 3]`. -/
def sessS6 : Session :=
  Session.new "s6" "/b.epub" "h" "T" "A"
    [(ChunkStatus.new 0 2).mark_completed "p2",
     (ChunkStatus.new 0 0).mark_completed "p0",
     (ChunkStatus.new 0 1).mark_completed "p1",
     (ChunkStatus.new 0 3).mark_completed "p3"] 0

/-- C9 witness: scenario S6 — the files come back in `chunk_id` order
`[0, 1, 2, 3]`, and the chunk list backing them is sorted. -/
theorem get_chapter_audio_files_spec_witness :
    get_chapter_audio_files sessS6 0 = ["p0", "p1", "p2", "p3"] ∧
    (chapterChunksSorted sessS6 0).Pairwise (fun a b => a.chunk_id ≤ b.chunk_id) :=
  ⟨by decide, (get_chapter_audio_files_spec sessS6 0).2.1⟩

theorem sessionEntryMatch_eq_some (book_hash : String) (e : SessionDirEntry) (t : Session) :
    sessionEntryMatch book_hash e = some t ↔
      e.is_json = true ∧ e.parsed = some t ∧ t.book_hash = book_hash
        ∧ t.completed = false := by
  unfold sessionEntryMatch
  constructor
  · intro h
    by_cases hj : e.is_json
    · rw [if_pos hj] at h
      cases hp : e.parsed with
      | none =>
        rw [hp] at h
        simp at h
      | some s =>
        rw [hp] at h
        by_cases hcnd : (s.book_hash == book_hash && !s.completed) = true
        · have h2 : (if s.book_hash == book_hash && !s.completed then some s else none)
              = some t := h
          rw [if_pos hcnd] at h2
          have hst : s = t := by simpa using h2
          subst hst
          simp only [Bool.and_eq_true, beq_iff_eq, Bool.not_eq_true'] at hcnd
          exact ⟨hj, rfl, hcnd.1, hcnd.2⟩
        · have h2 : (if s.book_hash == book_hash && !s.completed then some s else none)
              = some t := h
          rw [if_neg hcnd] at h2
          exact absurd h2 (by simp)
    · rw [if_neg hj] at h
      exact absurd h (by simp)
  · rintro ⟨hj, hp, hb, hc⟩
    rw [if_pos hj, hp]
    have hcnd : (t.book_hash == book_hash && !t.completed) = true := by
      simp [hb, hc]
    show (if t.book_hash == book_hash && !t.completed then some t else none) = some t
    rw [if_pos hcnd]

/-- C7: `find_session_for_book` returns a session exactly when some
parseable stored `.json` entry holds a session whose `book_hash` matches
the source hash with `completed = false`; the returned session is such a
session and is most recently updated among all of them; unreadable or
corrupt entries are skipped rather than fatal (they simply contribute
nothing). -/
theorem find_session_for_book_spec (book_hash : String) (entries : List SessionDirEntry) :
    (∀ sess, find_session_for_book book_hash entries = some sess →
      (∃ e ∈ entries, e.is_json = true ∧ e.parsed = some sess) ∧
      sess.book_hash = book_hash ∧ sess.completed = false ∧
      (∀ e ∈ entries, ∀ t : Session, e.is_json = true → e.parsed = some t →
        t.book_hash = book_hash → t.completed = false →
          t.updated_at ≤ sess.updated_at)) ∧
    (find_session_for_book book_hash entries = none ↔
      ∀ e ∈ entries, ∀ t : Session, e.is_json = true → e.parsed = some t →
        ¬(t.book_hash = book_hash ∧ t.completed = false)) := by
  constructor
  · intro sess hfind
    unfold find_session_for_book at hfind
    cases hm : entries.filterMap (sessionEntryMatch book_hash) with
    | nil =>
      rw [hm] at hfind
      exact absurd hfind (by simp)
    | cons m ms =>
      rw [hm] at hfind
      dsimp only at hfind
      have hperm := List.perm_insertionSort moreRecentFirst (m :: ms)
      have hsorted := List.sorted_insertionSort moreRecentFirst (m :: ms)
      cases hs : List.insertionSort moreRecentFirst (m :: ms) with
      | nil =>
        rw [hs] at hperm
        have := hperm.length_eq
        simp at this
      | cons y ys =>
        rw [hs] at hfind hperm hsorted
        have hysess : y = sess := by simpa using hfind
        subst hysess
        have hymem : y ∈ m :: ms := hperm.mem_iff.mp (List.mem_cons_self y ys)
        have hymem2 : y ∈ entries.filterMap (sessionEntryMatch book_hash) := by
          rw [hm]
          exact hymem
        obtain ⟨e, he, hfe⟩ := List.mem_filterMap.mp hymem2
        obtain ⟨hj, hp, hb, hc⟩ := (sessionEntryMatch_eq_some book_hash e y).mp hfe
        refine ⟨⟨e, he, hj, hp⟩, hb, hc, ?_⟩
        intro e2 he2 t hj2 hp2 hb2 hc2
        have htm : t ∈ entries.filterMap (sessionEntryMatch book_hash) :=
          List.mem_filterMap.mpr
            ⟨e2, he2, (sessionEntryMatch_eq_some book_hash e2 t).mpr ⟨hj2, hp2, hb2, hc2⟩⟩
        rw [hm] at htm
        have htm2 : t ∈ y :: ys := hperm.mem_iff.mpr htm
        rcases List.mem_cons.mp htm2 with rfl | htl
        · exact le_refl _
        · exact (List.pairwise_cons.mp hsorted).1 t htl
  · constructor
    · intro hnone e he t hj hp hmatch
      obtain ⟨hb, hc⟩ := hmatch
      unfold find_session_for_book at hnone
      cases hm : entries.filterMap (sessionEntryMatch book_hash) with
      | nil =>
        have htm : t ∈ entries.filterMap (sessionEntryMatch book_hash) :=
          List.mem_filterMap.mpr
            ⟨e, he, (sessionEntryMatch_eq_some book_hash e t).mpr ⟨hj, hp, hb, hc⟩⟩
        rw [hm] at htm
        simp at htm
      | cons m ms =>
        rw [hm] at hnone
        dsimp only at hnone
        have hperm := List.perm_insertionSort moreRecentFirst (m :: ms)
        cases hs : List.insertionSort moreRecentFirst (m :: ms) with
        | nil =>
          rw [hs] at hperm
          have := hperm.length_eq
          simp at this
        | cons y ys =>
          rw [hs] at hnone
          simp at hnone
    · intro hall
      unfold find_session_for_book
      cases hm : entries.filterMap (sessionEntryMatch book_hash) with
      | nil => rfl
      | cons m ms =>
        exfalso
        have hmmem : m ∈ entries.filterMap (sessionEntryMatch book_hash) := by
          rw [hm]
          exact List.mem_cons_self _ _
        obtain ⟨e, he, hfe⟩ := List.mem_filterMap.mp hmmem
        obtain ⟨hj, hp, hb, hc⟩ := (sessionEntryMatch_eq_some book_hash e m).mp hfe
        exact hall e he m hj hp ⟨hb, hc⟩

/-- An old incomplete session for book hash `h`. -/
def sdOld : Session := Session.new "old" "/b" "h" "T" "A" [] 1

/-- A more recent incomplete session for the same book. -/
def sdNew : Session := Session.new "new" "/b" "h" "T" "A" [] 9

/-- A completed session for the same book. -/
def sdDone : Session := { Session.new "done" "/b" "h" "T" "A" [] 7 with completed := true }

/-- An incomplete session for a different book. -/
def sdOther : Session := Session.new "other" "/b" "g" "T" "A" [] 8

/-- Directory listing exercising every skip rule of discovery. -/
def entriesW : List SessionDirEntry :=
  [{ is_json := true, parsed := some sdOld },
   { is_json := true, parsed := none },
   { is_json := true, parsed := some sdDone },
   { is_json := false, parsed := some sdNew },
   { is_json := true, parsed := some sdNew },
   { is_json := true, parsed := some sdOther }]

/-- C7 witness: among a corrupt entry, a completed session, a non-json file
and a wrong-hash session, discovery returns the most recently updated
matching incomplete session. -/
theorem find_session_for_book_spec_witness :
    find_session_for_book "h" entriesW = some sdNew ∧
    sdNew.book_hash = "h" ∧ sdNew.completed = false := by
  have h := (find_session_for_book_spec "h" entriesW).1 sdNew (by decide)
  exact ⟨by decide, h.2.1, h.2.2.1⟩

/- ===================== C8: download-failure disposition ===================== -/

/-- Marking the first `(ch, ck)` chunk complete makes the `(ch, ck)` lookup
report completed, provided such a chunk exists. -/
theorem find?_updateFirstChunk_mark (p : String) (ch ck : Nat) :
    ∀ l : List ChunkStatus, (∃ c ∈ l, c.chapter_id = ch ∧ c.chunk_id = ck) →
      (match (updateFirstChunk (fun c => c.mark_completed p) ch ck l).find?
          (fun c => c.chapter_id == ch && c.chunk_id == ck) with
       | some c => c.completed
       | none => false) = true := by
  intro l
  induction l with
  | nil => intro h; simp at h
  | cons a rest ih =>
    intro h
    by_cases ha : (a.chapter_id == ch && a.chunk_id == ck) = true
    · simp only [updateFirstChunk]
      rw [if_pos ha]
      have ha' : ((a.mark_completed p).chapter_id == ch
          && (a.mark_completed p).chunk_id == ck) = true := ha
      have hfind : List.find? (fun c => c.chapter_id == ch && c.chunk_id == ck)
          (a.mark_completed p :: rest)
          = some (a.mark_completed p) := List.find?_cons_of_pos _ ha'
      rw [hfind]
      rfl
    · simp only [updateFirstChunk]
      rw [if_neg ha]
      have hfind : List.find? (fun c => c.chapter_id == ch && c.chunk_id == ck)
          (a :: updateFirstChunk (fun c => c.mark_completed p) ch ck rest)
          = List.find? (fun c => c.chapter_id == ch && c.chunk_id == ck)
            (updateFirstChunk (fun c => c.mark_completed p) ch ck rest) :=
        List.find?_cons_of_neg _ (by simpa using ha)
      rw [hfind]
      apply ih
      obtain ⟨c, hc, hcc⟩ := h
      rcases List.mem_cons.mp hc with rfl | hc
      · exact absurd (by simp [hcc.1, hcc.2]) ha
      · exact ⟨c, hc, hcc⟩

/-- A completed `(ch, ck)` lookup stays completed across any
`updateFirstChunk` whose update keeps chunk identities and completion. -/
theorem find?_done_updateFirstChunk (f : ChunkStatus → ChunkStatus) (a b ch ck : Nat)
    (hid : ∀ c, (f c).chapter_id = c.chapter_id ∧ (f c).chunk_id = c.chunk_id)
    (hcomp : ∀ c, c.completed = true → (f c).completed = true) :
    ∀ l : List ChunkStatus,
      (match l.find? (fun c => c.chapter_id == ch && c.chunk_id == ck) with
       | some c => c.completed | none => false) = true →
      (match (updateFirstChunk f a b l).find?
          (fun c => c.chapter_id == ch && c.chunk_id == ck) with
       | some c => c.completed | none => false) = true := by
  intro l
  induction l with
  | nil => intro h; simp at h
  | cons c0 rest ih =>
    intro h
    have hcons : ∀ (x : ChunkStatus) (xs : List ChunkStatus),
        (x.chapter_id == ch && x.chunk_id == ck) = true →
        List.find? (fun c => c.chapter_id == ch && c.chunk_id == ck) (x :: xs) = some x :=
      fun x xs hx => List.find?_cons_of_pos _ hx
    have hconsneg : ∀ (x : ChunkStatus) (xs : List ChunkStatus),
        ¬(x.chapter_id == ch && x.chunk_id == ck) = true →
        List.find? (fun c => c.chapter_id == ch && c.chunk_id == ck) (x :: xs)
          = List.find? (fun c => c.chapter_id == ch && c.chunk_id == ck) xs :=
      fun x xs hx => List.find?_cons_of_neg _ (by simpa using hx)
    by_cases hup : (c0.chapter_id == a && c0.chunk_id == b) = true
    · simp only [updateFirstChunk]
      rw [if_pos hup]
      by_cases hfd : (c0.chapter_id == ch && c0.chunk_id == ck) = true
      · rw [hcons c0 rest hfd] at h
        have hfd' : ((f c0).chapter_id == ch && (f c0).chunk_id == ck) = true := by
          rw [(hid c0).1, (hid c0).2]
          exact hfd
        rw [hcons (f c0) rest hfd']
        exact hcomp c0 h
      · rw [hconsneg c0 rest hfd] at h
        have hfd' : ¬((f c0).chapter_id == ch && (f c0).chunk_id == ck) = true := by
          rw [(hid c0).1, (hid c0).2]
          exact hfd
        rw [hconsneg (f c0) rest hfd']
        exact h
    · simp only [updateFirstChunk]
      rw [if_neg hup]
      by_cases hfd : (c0.chapter_id == ch && c0.chunk_id == ck) = true
      · rw [hcons c0 rest hfd] at h
        rw [hcons c0 (updateFirstChunk f a b rest) hfd]
        exact h
      · rw [hconsneg c0 rest hfd] at h
        rw [hconsneg c0 (updateFirstChunk f a b rest) hfd]
        exact ih h

theorem updateFirstChunk_exists (f : ChunkStatus → ChunkStatus) (a b ch ck : Nat)
    (hid : ∀ c, (f c).chapter_id = c.chapter_id ∧ (f c).chunk_id = c.chunk_id) :
    ∀ l : List ChunkStatus, (∃ c ∈ l, c.chapter_id = ch ∧ c.chunk_id = ck) →
      ∃ c ∈ updateFirstChunk f a b l, c.chapter_id = ch ∧ c.chunk_id = ck := by
  intro l
  induction l with
  | nil => intro h; simp at h
  | cons c0 rest ih =>
    intro h
    obtain ⟨c, hc, hcc⟩ := h
    by_cases hup : (c0.chapter_id == a && c0.chunk_id == b) = true
    · simp only [updateFirstChunk]
      rw [if_pos hup]
      rcases List.mem_cons.mp hc with rfl | hc
      · exact ⟨f c, List.mem_cons_self _ _, by rw [(hid c).1, (hid c).2]; exact hcc⟩
      · exact ⟨c, List.mem_cons_of_mem _ hc, hcc⟩
    · simp only [updateFirstChunk]
      rw [if_neg hup]
      rcases List.mem_cons.mp hc with rfl | hc
      · exact ⟨c, List.mem_cons_self _ _, hcc⟩
      · obtain ⟨c2, hc2, hcc2⟩ := ih ⟨c, hc, hcc⟩
        exact ⟨c2, List.mem_cons_of_mem _ hc2, hcc2⟩

theorem chunkDone_mark_chunk_complete (sess : Session) (ch ck : Nat) (p : String)
    (now : Nat) (hex : ∃ c ∈ sess.chunks, c.chapter_id = ch ∧ c.chunk_id = ck) :
    chunkDone (mark_chunk_complete sess ch ck p now) ch ck = true := by
  unfold chunkDone
  rw [mark_chunk_complete_chunks]
  exact find?_updateFirstChunk_mark p ch ck sess.chunks hex

/-- A completed chunk stays completed across one session-update step. -/
theorem chunkDone_mono_updateStep (tmp : String) (now : Nat) (sess : Session)
    (r : TtsResult) (ch ck : Nat) (h : chunkDone sess ch ck = true) :
    chunkDone (updateSessionStep tmp now sess r) ch ck = true := by
  unfold updateSessionStep
  cases parseChapterFromJobId r.job_id with
  | none => exact h
  | some a =>
    cases parseChunkFromJobId r.job_id with
    | none => exact h
    | some b =>
      cases r.status with
      | completed =>
        show chunkDone (mark_chunk_complete sess a b _ now) ch ck = true
        unfold chunkDone at h ⊢
        rw [mark_chunk_complete_chunks]
        refine find?_done_updateFirstChunk _ a b ch ck ?_ ?_ sess.chunks h
        · intro c
          exact ⟨rfl, rfl⟩
        · intro c _
          rfl
      | failed =>
        show chunkDone (mark_chunk_error sess a b _ now) ch ck = true
        unfold chunkDone at h ⊢
        rw [mark_chunk_error_chunks]
        refine find?_done_updateFirstChunk _ a b ch ck ?_ ?_ sess.chunks h
        · intro c
          exact ⟨rfl, rfl⟩
        · intro c hc
          exact hc
      | timeout =>
        show chunkDone (mark_chunk_error sess a b _ now) ch ck = true
        unfold chunkDone at h ⊢
        rw [mark_chunk_error_chunks]
        refine find?_done_updateFirstChunk _ a b ch ck ?_ ?_ sess.chunks h
        · intro c
          exact ⟨rfl, rfl⟩
        · intro c hc
          exact hc

theorem exists_chunk_updateStep (tmp : String) (now : Nat) (sess : Session)
    (r : TtsResult) (ch ck : Nat)
    (h : ∃ c ∈ sess.chunks, c.chapter_id = ch ∧ c.chunk_id = ck) :
    ∃ c ∈ (updateSessionStep tmp now sess r).chunks,
      c.chapter_id = ch ∧ c.chunk_id = ck := by
  unfold updateSessionStep
  cases parseChapterFromJobId r.job_id with
  | none => exact h
  | some a =>
    cases parseChunkFromJobId r.job_id with
    | none => exact h
    | some b =>
      cases r.status with
      | completed =>
        show ∃ c ∈ (mark_chunk_complete sess a b _ now).chunks, _
        rw [mark_chunk_complete_chunks]
        refine updateFirstChunk_exists _ a b ch ck ?_ sess.chunks h
        intro c
        exact ⟨rfl, rfl⟩
      | failed =>
        show ∃ c ∈ (mark_chunk_error sess a b _ now).chunks, _
        rw [mark_chunk_error_chunks]
        refine updateFirstChunk_exists _ a b ch ck ?_ sess.chunks h
        intro c
        exact ⟨rfl, rfl⟩
      | timeout =>
        show ∃ c ∈ (mark_chunk_error sess a b _ now).chunks, _
        rw [mark_chunk_error_chunks]
        refine updateFirstChunk_exists _ a b ch ck ?_ sess.chunks h
        intro c
        exact ⟨rfl, rfl⟩

theorem chunkDone_mono_fold (tmp : String) (now : Nat) (ch ck : Nat) :
    ∀ (rs : List TtsResult) (sess : Session), chunkDone sess ch ck = true →
      chunkDone (rs.foldl (updateSessionStep tmp now) sess) ch ck = true := by
  intro rs
  induction rs with
  | nil => intro sess h; exact h
  | cons r rs ih =>
    intro sess h
    exact ih _ (chunkDone_mono_updateStep tmp now sess r ch ck h)

theorem updateSession_marks_complete :
    ∀ (results : List TtsResult) (sess : Session) (r : TtsResult) (tmp : String)
      (now : Nat) (ch ck : Nat),
      r ∈ results → r.status = JobStatus.completed →
      parseChapterFromJobId r.job_id = some ch →
      parseChunkFromJobId r.job_id = some ck →
      (∃ c ∈ sess.chunks, c.chapter_id = ch ∧ c.chunk_id = ck) →
      chunkDone (updateSessionWithResults sess results tmp now) ch ck = true := by
  intro results
  induction results with
  | nil =>
    intro sess r tmp now ch ck hmem
    simp at hmem
  | cons r0 rs ih =>
    intro sess r tmp now ch ck hmem hst hpc hpk hex
    show chunkDone (rs.foldl (updateSessionStep tmp now)
      (updateSessionStep tmp now sess r0)) ch ck = true
    rcases List.mem_cons.mp hmem with rfl | hmem
    · apply chunkDone_mono_fold
      have hstep : updateSessionStep tmp now sess r
          = mark_chunk_complete sess ch ck (tmp ++ "/" ++ r.job_id ++ ".wav") now := by
        unfold updateSessionStep
        rw [hpc, hpk, hst]
      rw [hstep]
      exact chunkDone_mark_chunk_complete sess ch ck _ now hex
    · exact ih _ r tmp now ch ck hmem hst hpc hpk
        (exists_chunk_updateStep tmp now sess r0 ch ck hex)

/-- C8: a completed-status result matching an in-flight job is appended to
`completed` and triggers the per-result callback, and the whole
`handle_result` outcome is independent of whether the audio download
succeeded; consequently the driver's session-update loop marks the chunk of
every worker-reported success complete, regardless of download outcome. -/
theorem download_failure_disposition :
    (∀ (s : JobScheduler) (w : String) (r : TtsResult) (dl : Bool),
      r.status = JobStatus.completed →
      (∃ e ∈ s.in_flight, e.job.job_id = r.job_id) →
      ((s.handleResult w r dl).1).completed = s.completed ++ [r] ∧
      (s.handleResult w r dl).2 = [r] ∧
      s.handleResult w r dl = s.handleResult w r true) ∧
    (∀ (sess : Session) (results : List TtsResult) (r : TtsResult) (tmp : String)
        (now : Nat) (ch ck : Nat),
      r ∈ results → r.status = JobStatus.completed →
      parseChapterFromJobId r.job_id = some ch →
      parseChunkFromJobId r.job_id = some ck →
      (∃ c ∈ sess.chunks, c.chapter_id = ch ∧ c.chunk_id = ck) →
      chunkDone (updateSessionWithResults sess results tmp now) ch ck = true) := by
  constructor
  · intro s w r dl hst hex
    have hex' : ∃ e ∈ s.in_flight, (fun j => j.job.job_id == r.job_id) e = true := by
      obtain ⟨e, he, heq⟩ := hex
      exact ⟨e, he, by simp [heq]⟩
    obtain ⟨entry, rest, hx⟩ := extractFirst_some_of_exists hex'
    refine ⟨?_, ?_, rfl⟩
    · rw [handleResult_eq_completed s w r dl hx hst]
    · rw [handleResult_eq_completed s w r dl hx hst]
  · exact fun sess results r tmp now ch ck hmem hst hpc hpk hex =>
      updateSession_marks_complete results sess r tmp now ch ck hmem hst hpc hpk hex

/-- Completed-status result for the job of `jobJ`, shaped as
`TtsResult::success` builds it. -/
def okR : TtsResult :=
  { version := PROTOCOL_VERSION, job_id := mkJobId "sess" 0 0,
    status := JobStatus.completed, duration_ms := some 5,
    audio_size_bytes := some 10, audio_path := some "out.wav", error := none,
    completed_at := 1 }

/-- Scheduler with the job of `okR` in flight. -/
def schedC8 : JobScheduler :=
  { JobScheduler.new "tmp" with in_flight := [{ job := jobJ, worker_name := "w1" }] }

/-- One-chunk session matching the job of `okR`. -/
def sessC8 : Session := Session.new "s" "/b" "h" "T" "A" [ChunkStatus.new 0 0] 0

/-- C8 witness: with the download outcome reported as failed, the result is
still appended to `completed`, the callback still fires, and the session
chunk is still marked complete. -/
theorem download_failure_disposition_witness :
    ((schedC8.handleResult "w1" okR false).1).completed = schedC8.completed ++ [okR] ∧
    (schedC8.handleResult "w1" okR false).2 = [okR] ∧
    chunkDone (updateSessionWithResults sessC8 [okR] "/tmp" 7) 0 0 = true := by
  have h1 := download_failure_disposition.1 schedC8 "w1" okR false (by decide)
    ⟨{ job := jobJ, worker_name := "w1" }, List.mem_singleton.mpr rfl, rfl⟩
  have h2 := download_failure_disposition.2 sessC8 [okR] okR "/tmp" 7 0 0
    (List.mem_singleton.mpr rfl) (by decide) (by decide) (by decide)
    ⟨ChunkStatus.new 0 0, List.mem_singleton.mpr rfl, rfl, rfl⟩
  exact ⟨h1.1, h1.2.1, h2⟩

/- ===================== C10: progress is total ===================== -/

/-- C10: `get_progress` is total. For a session with `total_chunks = 0` (its
chunk list is empty, since `total_chunks` is the chunk-list length) the
guarded division yields `(0, 0, 0)`; for `total_chunks > 0` it returns the
completed count, the total, and `completed / total * 100`, with
`completed ≤ total`. The `f64` percentage is modelled in `ℚ`. -/
theorem get_progress_total (s : Session) (hlen : s.total_chunks = s.chunks.length) :
    (s.total_chunks = 0 → get_progress s = (0, 0, 0)) ∧
    (0 < s.total_chunks →
      get_progress s = (s.completed_count, s.total_chunks,
        (s.completed_count : ℚ) / (s.total_chunks : ℚ) * 100) ∧
      s.completed_count ≤ s.total_chunks) := by
  have hcc : s.completed_count ≤ s.chunks.length := by
    unfold Session.completed_count
    exact List.length_filter_le _ _
  constructor
  · intro h0
    have hcc0 : s.completed_count = 0 := by omega
    unfold get_progress
    rw [h0, hcc0]
    norm_num
  · intro hpos
    constructor
    · unfold get_progress
      dsimp only
      rw [if_pos hpos]
    · omega

/-- Four-chunk session with one completed chunk. -/
def sessP : Session :=
  Session.new "p" "/b" "h" "T" "A"
    [(ChunkStatus.new 0 0).mark_completed "x", ChunkStatus.new 0 1,
     ChunkStatus.new 1 0, ChunkStatus.new 1 1] 0

/-- Zero-chunk session. -/
def sessZ : Session := Session.new "z" "/b" "h" "T" "A" [] 0

/-- C10 witness: the zero-chunk session yields `(0, 0, 0)` without dividing,
and the four-chunk session yields `(1, 4, 25)`. -/
theorem get_progress_total_witness :
    get_progress sessZ = (0, 0, 0) ∧
    get_progress sessP = (1, 4, 25) ∧
    sessP.completed_count ≤ sessP.total_chunks := by
  have hz := (get_progress_total sessZ rfl).1 rfl
  have hp := (get_progress_total sessP rfl).2 (by decide)
  have hc1 : sessP.completed_count = 1 := by decide
  have ht4 : sessP.total_chunks = 4 := by decide
  refine ⟨hz, ?_, hp.2⟩
  rw [hp.1, hc1, ht4]
  norm_num

/- ===================== C4: option clamping ===================== -/

/-- Embedding of `create_jobs` (`coordinator/scheduler.rs`): one
`TtsJob::new` per `(chapter_id, chunk_id, text)` chunk, every job sharing a
clone of the given options. `Utc::now()` is passed in as `now`. -/
def create_jobs (session_id : String) (chunks : List (Nat × Nat × String))
    (options : TtsJobOptions) (now : Nat) : List TtsJob :=
  chunks.map (fun c => TtsJob.new session_id c.1 c.2.1 c.2.2 options now)

/-- Rust `x.clamp(lo, hi)` on floats, modelled on `ℚ`. -/
def clampQ (lo hi x : ℚ) : ℚ := max lo (min hi x)

/-- The `TtsJobOptions` built by `run_distributed` (`main.rs`): the
command-line values `args.exaggeration`, `args.cfg`, `args.temperature` are
copied verbatim, with no clamping. -/
def runDistributedOptions (exaggeration cfg temperature : ℚ)
    (voice_hash : Option String) : TtsJobOptions :=
  { exaggeration := exaggeration, cfg := cfg, temperature := temperature,
    voice_ref_hash := voice_hash }

/-- The clamping `gena config set-exaggeration` performs
(`ConfigAction::SetExaggeration` in `main.rs`): `value.clamp(0.25, 2.0)`.
This is the only place an exaggeration value is clamped. -/
def configSetExaggeration (value : ℚ) : ℚ := clampQ (1/4) 2 value

/-- C4: refuted (code bug). `run_distributed` copies the command-line option
values into `TtsJobOptions` verbatim and `create_jobs` forwards them
unchanged into every dispatched `TtsJob`, so an out-of-range input such as
`--exaggeration 9` reaches the worker as 9, outside `[0.25, 2.0]`. Clamping
exists only on the separate `config set-exaggeration` path, which would have
produced 2. -/
theorem options_not_clamped :
    (∀ sid chunks e c t vh now,
      ∀ j ∈ create_jobs sid chunks (runDistributedOptions e c t vh) now,
        j.options = runDistributedOptions e c t vh) ∧
    (∀ j ∈ create_jobs "s" [(0, 0, "x")] (runDistributedOptions 9 (1/2) (4/5) none) 0,
        ¬ (j.options.exaggeration ≤ 2)) ∧
    (create_jobs "s" [(0, 0, "x")] (runDistributedOptions 9 (1/2) (4/5) none) 0).length = 1 ∧
    configSetExaggeration 9 = 2 := by
  refine ⟨?_, ?_, rfl, ?_⟩
  · intro sid chunks e c t vh now j hj
    rcases List.mem_map.mp hj with ⟨ck, _, rfl⟩
    rfl
  · intro j hj
    rcases List.mem_map.mp hj with ⟨ck, hck, rfl⟩
    rcases List.mem_singleton.mp hck with rfl
    show ¬ ((9 : ℚ) ≤ 2)
    norm_num
  · show clampQ (1/4) 2 9 = 2
    rw [clampQ, min_eq_left (by norm_num), max_eq_right (by norm_num)]

/-- The unclamped options `run_distributed` builds for `--exaggeration 9`. -/
def optsC4 : TtsJobOptions := runDistributedOptions 9 (1/2) (4/5) none

/-- C4 witness: the single job created for one pending chunk under
`--exaggeration 9` carries exaggeration 9, outside `[0.25, 2.0]`. -/
theorem options_not_clamped_witness :
    (TtsJob.new "s" 0 0 "x" optsC4 0).options = optsC4 ∧
    ¬ ((TtsJob.new "s" 0 0 "x" optsC4 0).options.exaggeration ≤ 2) := by
  have hmem : TtsJob.new "s" 0 0 "x" optsC4 0 ∈
      create_jobs "s" [(0, 0, "x")] (runDistributedOptions 9 (1/2) (4/5) none) 0 :=
    List.mem_map.mpr ⟨(0, 0, "x"), List.mem_singleton.mpr rfl, rfl⟩
  have h1 := options_not_clamped.1 "s" [(0, 0, "x")] 9 (1/2) (4/5) none 0
    (TtsJob.new "s" 0 0 "x" optsC4 0) hmem
  have h2 := options_not_clamped.2.1 (TtsJob.new "s" 0 0 "x" optsC4 0) hmem
  exact ⟨h1, h2⟩

/- ===================== C5: worker connect ===================== -/

/-- Environment for `Worker::connect`: the outcomes of its three effectful
steps — `test_connection()`, `exec("gena worker status")`, and
`serde_json::from_str::<WorkerStatus>` applied to the exec output. -/
structure ConnectEnv where
  test_connection : Except String Unit
  exec_status : Except String String
  parse_status : String → Except String WorkerStatus

/-- Embedding of `Worker::connect` (`coordinator/pool.rs`): test the
connection (an error propagates with the worker unchanged), set
`connected := true`, run the status command and parse its output (either
error propagates, but only after `connected` was already set), then store
the parsed status and return `Ok(())`. -/
def Worker.connect (w : Worker) (env : ConnectEnv) : Worker × Except String Unit :=
  match env.test_connection with
  | Except.error e => (w, Except.error e)
  | Except.ok _ =>
      let w1 : Worker := { w with connected := true }
      match env.exec_status with
      | Except.error e => (w1, Except.error e)
      | Except.ok output =>
          match env.parse_status output with
          | Except.error e => (w1, Except.error e)
          | Except.ok st => ({ w1 with status := some st }, Except.ok ())

/-- C5 (corrected): `connect()` returns `Ok` exactly when all three steps
succeed, and then stores the parsed status; a failing connection test
propagates its error with the worker unchanged; but `connected` is set to
`true` as soon as the connection test succeeds — even when the status
command or its parse then fails and `connect()` returns an error — and a
repeated `connect()` after success is idempotent. -/
theorem worker_connect_spec (w : Worker) (env : ConnectEnv) :
    (∀ e, env.test_connection = Except.error e →
        w.connect env = (w, Except.error e)) ∧
    (∀ u, env.test_connection = Except.ok u →
        (w.connect env).1.connected = true) ∧
    (∀ u out st, env.test_connection = Except.ok u →
        env.exec_status = Except.ok out → env.parse_status out = Except.ok st →
        w.connect env =
          ({ w with connected := true, status := some st }, Except.ok ())) ∧
    ((w.connect env).2 = Except.ok () →
        ∃ out st, env.test_connection = Except.ok () ∧
          env.exec_status = Except.ok out ∧ env.parse_status out = Except.ok st) ∧
    ((w.connect env).2 = Except.ok () →
        (w.connect env).1.connect env = w.connect env) := by
  refine ⟨?_, ?_, ?_, ?_, ?_⟩
  · intro e he
    simp only [Worker.connect, he]
  · intro u hu
    cases u
    cases hex : env.exec_status with
    | error e => simp only [Worker.connect, hu, hex]
    | ok output =>
      cases hp : env.parse_status output with
      | error e => simp only [Worker.connect, hu, hex, hp]
      | ok st => simp only [Worker.connect, hu, hex, hp]
  · intro u out st hu hex hp
    cases u
    simp only [Worker.connect, hu, hex, hp]
  · intro hok
    cases htc : env.test_connection with
    | error e =>
      have hbad : (w.connect env).2 = Except.error e := by
        simp only [Worker.connect, htc]
      rw [hbad] at hok
      exact Except.noConfusion hok
    | ok u =>
      cases u
      cases hex : env.exec_status with
      | error e =>
        have hbad : (w.connect env).2 = Except.error e := by
          simp only [Worker.connect, htc, hex]
        rw [hbad] at hok
        exact Except.noConfusion hok
      | ok output =>
        cases hp : env.parse_status output with
        | error e =>
          have hbad : (w.connect env).2 = Except.error e := by
            simp only [Worker.connect, htc, hex, hp]
          rw [hbad] at hok
          exact Except.noConfusion hok
        | ok st => exact ⟨output, st, rfl, rfl, hp⟩
  · intro hok
    cases htc : env.test_connection with
    | error e =>
      have hbad : (w.connect env).2 = Except.error e := by
        simp only [Worker.connect, htc]
      rw [hbad] at hok
      exact Except.noConfusion hok
    | ok u =>
      cases u
      cases hex : env.exec_status with
      | error e =>
        have hbad : (w.connect env).2 = Except.error e := by
          simp only [Worker.connect, htc, hex]
        rw [hbad] at hok
        exact Except.noConfusion hok
      | ok output =>
        cases hp : env.parse_status output with
        | error e =>
          have hbad : (w.connect env).2 = Except.error e := by
            simp only [Worker.connect, htc, hex, hp]
          rw [hbad] at hok
          exact Except.noConfusion hok
        | ok st =>
          have hfull : w.connect env =
              ({ w with connected := true, status := some st }, Except.ok ()) := by
            simp only [Worker.connect, htc, hex, hp]
          rw [hfull]
          simp only [Worker.connect, htc, hex, hp]

/-- A parsed worker status used by the C5 witness. -/
def stC5 : WorkerStatus :=
  { ready := true, device := "cuda", gena_version := "1",
    chatterbox_installed := true, jobs_in_progress := 0,
    available_disk_mb := 100 }

/-- Environment in which all three connect steps succeed. -/
def envOkC5 : ConnectEnv :=
  { test_connection := Except.ok (), exec_status := Except.ok "status-json",
    parse_status := fun _ => Except.ok stC5 }

/-- Environment in which the connection test itself fails. -/
def envErrC5 : ConnectEnv :=
  { test_connection := Except.error "no route", exec_status := Except.error "unused",
    parse_status := fun _ => Except.error "unused" }

/-- A freshly created worker (`connected = false`, no status). -/
def wC5 : Worker := Worker.new (WorkerConfig.new "w1" "h" "u")

/-- C5 witness: a failing connection test leaves the worker unchanged and
returns its error; a fully successful run sets `connected` and the status
and is idempotent. -/
theorem worker_connect_spec_witness :
    wC5.connect envErrC5 = (wC5, Except.error "no route") ∧
    (wC5.connect envOkC5).1.connected = true ∧
    wC5.connect envOkC5 =
      ({ wC5 with connected := true, status := some stC5 }, Except.ok ()) ∧
    (wC5.connect envOkC5).1.connect envOkC5 = wC5.connect envOkC5 := by
  have h1 := (worker_connect_spec wC5 envErrC5).1 "no route" rfl
  have h2 := (worker_connect_spec wC5 envOkC5).2.1 () rfl
  have h3 := (worker_connect_spec wC5 envOkC5).2.2.1 () "status-json" stC5 rfl rfl rfl
  have h5 := (worker_connect_spec wC5 envOkC5).2.2.2.2 (by rw [h3])
  exact ⟨h1, h2, h3, h5⟩

/-- Environment in which the connection test succeeds but the status
command fails. -/
def envHalfC5 : ConnectEnv :=
  { test_connection := Except.ok (), exec_status := Except.error "status failed",
    parse_status := fun _ => Except.error "unused" }

/-- C5 counterexample: when the connection test succeeds but the status
command fails, `connect()` returns an error — yet `connected` is already
`true` on a worker that started with `connected = false`, refuting the
claim that `connected` becomes true only if both steps succeeded. -/
theorem worker_connect_counterexample :
    ((Worker.new (WorkerConfig.new "w2" "h" "u")).connect envHalfC5).2 =
      Except.error "status failed" ∧
    ((Worker.new (WorkerConfig.new "w2" "h" "u")).connect envHalfC5).1.connected = true ∧
    (Worker.new (WorkerConfig.new "w2" "h" "u")).connected = false :=
  ⟨rfl, rfl, rfl⟩

end GenAudio
